import Mathlib

/-!
Verification development for the IPTV scraper (`scraper.py` and the
`example_usage.py` playlist renderer).  The Python source is embedded
shallowly: pure fragments become Lean functions, the mutable scraper state
(`self.channel_mapping`, `self.channels`) is threaded explicitly, network
transport is abstracted into an input datum, and Python exceptions surface
as `Option` (`none` = the statement raised).  Machine strings are
`String`/`List Char`; channel numbers keep Python's int-versus-str
distinction via `PyKey`, because the registry file stores numbers as
decimal strings while fresh assignments are Python ints.
-/

set_option maxRecDepth 8000

namespace BdixSc

/-- Quote characters recognised by the extraction regexes (`"` and `'`). -/
def isQuote (c : Char) : Bool := c == Char.ofNat 34 || c == Char.ofNat 39

/-- ASCII whitespace as matched by the regex class `\s`. -/
def isSpaceCh (c : Char) : Bool :=
  c == ' ' || c == Char.ofNat 9 || c == Char.ofNat 10 || c == Char.ofNat 13 ||
  c == Char.ofNat 11 || c == Char.ofNat 12

/-- Characters allowed inside the bare-URL character class `[^<>\s]`. -/
def notStop (c : Char) : Bool := !(c == '<' || c == '>' || isSpaceCh c)

/-- Boolean list-prefix test (case-sensitive), first argument is the pattern. -/
def pfx : List Char → List Char → Bool
  | [], _ => true
  | _ :: _, [] => false
  | a :: as, b :: bs => a == b && pfx as bs

/-- Case-insensitive prefix test: the pattern is given in lowercase and each
text character is lowered before comparison (regex `re.IGNORECASE`). -/
def lcPfx : List Char → List Char → Bool
  | [], _ => true
  | _ :: _, [] => false
  | a :: as, b :: bs => a == b.toLower && lcPfx as bs

/-- Boolean substring occurrence test (Python's `pat in s`). -/
def subStr (p : List Char) : List Char → Bool
  | [] => p.isEmpty
  | c :: s => pfx p (c :: s) || subStr p s

/-- Lowercase an entire character list (Python's `s.lower()` for ASCII). -/
def lcStr (s : List Char) : List Char := s.map Char.toLower

/-- Case-insensitive substring test: `p` (lowercase) occurs in `s`. -/
def lcSub (p s : List Char) : Bool := subStr p (lcStr s)

/-- Substring occurrence at offset at least one (used for `[^<>\s]+\.m3u8`,
where at least one character must precede the literal `.m3u8`). -/
def subStrFrom1 (p : List Char) : List Char → Bool
  | [] => false
  | _ :: s => subStr p s

/-- Decimal digit to character. -/
def digitChar : Nat → Char
  | 0 => '0' | 1 => '1' | 2 => '2' | 3 => '3' | 4 => '4'
  | 5 => '5' | 6 => '6' | 7 => '7' | 8 => '8' | _ => '9'

/-- Fuelled accumulator loop producing the decimal digits of `n` (most
significant first) in front of `acc`. -/
def natToStrAux : Nat → Nat → List Char → List Char
  | 0, _, acc => acc
  | _ + 1, 0, acc => acc
  | fuel + 1, n + 1, acc =>
    natToStrAux fuel ((n + 1) / 10) (digitChar ((n + 1) % 10) :: acc)

/-- Decimal rendering of a natural number, Python's `str(n)` for `n ≥ 0`. -/
def natToStr (n : Nat) : String :=
  if n = 0 then "0" else String.mk (natToStrAux n n [])

/-- Left fold reading a decimal digit list, continuing from accumulator `a`. -/
def decL (a : Nat) (s : List Char) : Nat :=
  s.foldl (fun x c => x * 10 + (c.toNat - 48)) a

/-- Numeric value of a decimal digit string, Python's `int(v)` on the
canonical registry values (all of which are nonnegative digit strings). -/
def decVal (s : String) : Nat := decL 0 s.data

/-- Simplified model of `urllib.parse.urljoin` restricted to the shapes this
scraper produces: the base address is an origin (`http://host`, no path, no
trailing slash after `rstrip('/')`), so an absolute url is returned as is, a
root-relative url is appended to the base, any other nonempty url is joined
with a single slash, and an empty url yields the base. -/
def urljoin (base url : String) : String :=
  if url = "" then base
  else if lcPfx "http://".data url.data || lcPfx "https://".data url.data then url
  else if pfx "/".data url.data then base ++ url
  else base ++ "/" ++ url

/-- A Python value used as a channel number: `_assign_channel_number` returns
the stored string for an existing name but a fresh int for a new name. -/
inductive PyKey where
  | pint : Nat → PyKey
  | pstr : String → PyKey
deriving DecidableEq

/-- Numeric reading of a channel-number value. -/
def pyVal : PyKey → Nat
  | .pint n => n
  | .pstr s => decVal s

/-- Rendering of a channel number inside an f-string (`str` of the value). -/
def pyKeyStr : PyKey → String
  | .pint n => natToStr n
  | .pstr s => s

/-- Whether a channel-number value is string-typed. -/
def isStrKey : PyKey → Bool
  | .pint _ => false
  | .pstr _ => true

/-- The persistent registry `self.channel_mapping`: an insertion-ordered map
from display name to the decimal string of its persistent number, exactly as
`json.load` of the mapping file produces it. -/
abbrev Registry := List (String × String)

/-- Maximum of `int(v)` over all registry values (0 for the empty registry),
modelling `max(int(v) for v in self.channel_mapping.values())`. -/
def maxVal (r : Registry) : Nat :=
  r.foldl (fun a p => max a (decVal p.2)) 0

/-- The method `IPTVScraper._assign_channel_number`: return the stored value
unchanged if the name is present, otherwise insert and return
`max(values) + 1` (1 for an empty registry).  The stored value is
`str(next_number)` while the value returned for a fresh name is the int. -/
def assignChannelNumber (r : Registry) (name : String) : PyKey × Registry :=
  match List.lookup name r with
  | some v => (.pstr v, r)
  | none =>
    let next := if r.isEmpty then 1 else maxVal r + 1
    (.pint next, r ++ [(name, natToStr next)])

/-- Registry reached by a sequence of `_assign_channel_number` calls starting
from the empty registry. -/
def runAssign (names : List String) : Registry :=
  names.foldl (fun r n => (assignChannelNumber r n).2) []

/-- Lexicographic strict order on character lists by code point, Python's
`<` on strings. -/
def lexLt : List Char → List Char → Bool
  | [], [] => false
  | [], _ :: _ => true
  | _ :: _, [] => false
  | a :: as, b :: bs => if a == b then lexLt as bs else decide (a.toNat < b.toNat)

/-- Python's `<` on two sort keys: defined within one type (numeric for ints,
lexicographic by code point for strings), a `TypeError` (`none`) across
types. -/
def pyLt : PyKey → PyKey → Option Bool
  | .pint a, .pint b => some (decide (a < b))
  | .pstr a, .pstr b => some (lexLt a.data b.data)
  | _, _ => none

/-- Stable insertion into an already sorted list, propagating a comparison
`TypeError` as `none`. -/
def pyInsert (key : α → PyKey) (x : α) : List α → Option (List α)
  | [] => some [x]
  | y :: ys =>
    match pyLt (key x) (key y) with
    | none => none
    | some true => some (x :: y :: ys)
    | some false => (pyInsert key x ys).map (y :: ·)

/-- Model of `list.sort(key=...)`: a stable comparison sort that raises
(`none`) exactly when int and str keys are compared.  CPython's timsort is
stable and compares every adjacent pair while detecting runs, so on a
mixed-type key list it raises just like this insertion sort, and on a
single-type key list both produce the unique stable ascending order. -/
def pySortBy (key : α → PyKey) (l : List α) : Option (List α) :=
  l.foldl (fun acc x => acc.bind (pyInsert key x)) (some [])

/-- Result of `channel_item.find('a', class_='channel')` when present:
its `onclick` attribute (`link.get('onclick', '')` treats a missing
attribute as the empty string). -/
structure RawLink where
  onclick : Option String
deriving DecidableEq

/-- Result of `channel_item.find('img')` when present: the optional `alt`
and `src` attributes. -/
structure RawImg where
  alt : Option String
  src : Option String
deriving DecidableEq

/-- One `<li>` listing entry as the parser inspects it: the anchor of class
`channel` (if found) and the nested image element (if found). -/
structure RawItem where
  link : Option RawLink
  img : Option RawImg
deriving DecidableEq

/-- One parsed channel record (`channel_info` dict). -/
structure Channel where
  number : PyKey
  name : String
  stream_id : String
  logo : String
  m3u8_url : Option String
deriving DecidableEq

/-- Leftmost match of `re.search(r'stream=(\d+)', onclick)`: at the first
position where the literal `stream=` is followed by at least one ASCII
digit, capture the maximal digit run. -/
def streamSearch : List Char → Option (List Char)
  | [] => none
  | c :: s =>
    if pfx "stream=".data (c :: s) then
      match ((c :: s).drop 7).takeWhile Char.isDigit with
      | [] => streamSearch s
      | d :: ds => some (d :: ds)
    else streamSearch s

/-- The per-item extraction in `parse_html`: locate the anchor, extract the
stream token from `onclick`, locate the image, then read the display name
(`img.get('alt', f'Channel {token}')`) and the logo (absolutised `src`).
Returns `none` exactly when the item is skipped by a `continue`. -/
def itemParsed (base : String) (it : RawItem) : Option (String × String × String) :=
  match it.link with
  | none => none
  | some l =>
    match streamSearch (l.onclick.getD "").data with
    | none => none
    | some tok =>
      match it.img with
      | none => none
      | some img =>
        let tokS := String.mk tok
        some (img.alt.getD ("Channel " ++ tokS), tokS,
          urljoin base (img.src.getD ""))

/-- Observable events of one scraper run: a record appended during the parse
loop, the full-registry save `_save_channel_mapping`, and a resolution
request submitted for one stream token. -/
inductive Event where
  | evParse : String → Event
  | evSave : Registry → Event
  | evFetch : String → Event
deriving DecidableEq

/-- Whether an event is a parse event. -/
def isParseEv : Event → Bool
  | .evParse _ => true
  | _ => false

/-- Whether an event is a registry save. -/
def isSaveEv : Event → Bool
  | .evSave _ => true
  | _ => false

/-- Whether an event is a resolution request. -/
def isFetchEv : Event → Bool
  | .evFetch _ => true
  | _ => false

/-- One iteration of the `parse_html` loop over `channels_list`, threading
the registry and the accumulating `self.channels`, and recording a parse
event for each appended record. -/
def parseStepT (base : String) (st : (Registry × List Channel) × List Event)
    (it : RawItem) : (Registry × List Channel) × List Event :=
  match itemParsed base it with
  | none => st
  | some e =>
    let a := assignChannelNumber st.1.1 e.1
    ((a.2, st.1.2 ++ [⟨a.1, e.1, e.2.1, e.2.2, none⟩]),
      st.2 ++ [.evParse e.1])

/-- The body of `parse_html` after the document was obtained, instrumented
with its event trace: run the loop, sort `self.channels` by the `number`
key (a `TypeError` aborts the method before the save), then save the full
registry unconditionally.  The input state is `(self.channel_mapping,
self.channels)` on entry. -/
def parse_htmlT (base : String) (st : Registry × List Channel)
    (items : List RawItem) : Option (Registry × List Channel) × List Event :=
  let r := items.foldl (parseStepT base) (st, [])
  match pySortBy (fun c => c.number) r.1.2 with
  | none => (none, r.2)
  | some sorted => (some (r.1.1, sorted), r.2 ++ [.evSave r.1.1])

/-- `parse_html` without the trace. -/
def parse_html (base : String) (st : Registry × List Channel)
    (items : List RawItem) : Option (Registry × List Channel) :=
  (parse_htmlT base st items).1

/-- The record `parse_html` appends for an item when the registry already
contains the item's display name (used to describe re-runs). -/
def recOf (base : String) (reg : Registry) (it : RawItem) : Option Channel :=
  match itemParsed base it with
  | none => none
  | some e =>
    match List.lookup e.1 reg with
    | some v => some ⟨.pstr v, e.1, e.2.1, e.2.2, none⟩
    | none => none

/-- Split at the first quote character: `some (before, after)` when a quote
exists, where `before` contains no quote and `after` starts past the quote.
This is how `[^"\']*` followed by `["\']` consumes text. -/
def spanToQuote : List Char → Option (List Char × List Char)
  | [] => none
  | c :: s =>
    if isQuote c then some ([], s)
    else
      match spanToQuote s with
      | some (a, b) => some (c :: a, b)
      | none => none

/-- Match of `["\']([^"\']*\.m3u8[^"\']*)["\']` anchored at the start of the
input: an opening quote, then the text up to the next quote, which must
contain `.m3u8` case-insensitively.  Returns the capture and the suffix
after the closing quote. -/
def quotedM3u8At : List Char → Option (List Char × List Char)
  | [] => none
  | c :: s =>
    if isQuote c then
      match spanToQuote s with
      | some (content, rest) =>
        if lcSub ".m3u8".data content then some (content, rest) else none
      | none => none
    else none

/-- Match of `["\']([^"\']*)["\']` anchored at the start: any quoted span,
empty capture allowed. -/
def quotedAnyAt : List Char → Option (List Char × List Char)
  | [] => none
  | c :: s =>
    if isQuote c then
      match spanToQuote s with
      | some (content, rest) => some (content, rest)
      | none => none
    else none

/-- Drop leading regex whitespace (`\s*`). -/
def skipWs : List Char → List Char := List.dropWhile isSpaceCh

/-- Consume `[^>]*>`: text up to and including the first `>`; fails when no
`>` remains. -/
def tailToGt : List Char → Option (List Char)
  | [] => none
  | c :: s => if c == '>' then some s else tailToGt s

/-- Backtracking for `[^>]+src=` followed by a continuation: try the longest
`mid` first (greedy), requiring `mid` nonempty and free of `>`, then the
literal `src=` (tested by `srcOk` on the remaining text), then the
continuation `inner`.  `p` bounds the length of `mid`. -/
def tryMids (srcOk : List Char → Bool)
    (inner : List Char → Option (List Char × List Char))
    (s : List Char) : Nat → Option (List Char × List Char)
  | 0 => none
  | p + 1 =>
    if (s.take (p + 1)).contains '>' then tryMids srcOk inner s p
    else if srcOk (s.drop (p + 1)) then
      match inner (s.drop (p + 1 + 4)) with
      | some r => some r
      | none => tryMids srcOk inner s p
    else tryMids srcOk inner s p

/-- Pattern 1, `src=["\']([^"\']*\.m3u8[^"\']*)["\']`, anchored. -/
def p1M (s : List Char) : Option (List Char × List Char) :=
  if lcPfx "src=".data s then quotedM3u8At (s.drop 4) else none

/-- Pattern 2, `src\s*:\s*["\']([^"\']*\.m3u8[^"\']*)["\']`, anchored. -/
def p2M (s : List Char) : Option (List Char × List Char) :=
  if lcPfx "src".data s then
    match skipWs (s.drop 3) with
    | c :: t => if c == ':' then quotedM3u8At (skipWs t) else none
    | [] => none
  else none

/-- Pattern 3, `<source[^>]+src=["\'](...m3u8...)["\']`, anchored. -/
def p3M (s : List Char) : Option (List Char × List Char) :=
  if lcPfx "<source".data s then
    tryMids (lcPfx "src=".data) quotedM3u8At (s.drop 7) (s.drop 7).length
  else none

/-- Pattern 4, `["\']([^"\']*\.m3u8[^"\']*)["\']`, anchored. -/
def p4M (s : List Char) : Option (List Char × List Char) := quotedM3u8At s

/-- Pattern 5, `(https?://[^<>\s]+\.m3u8[^<>\s]*)`, anchored: a scheme, then
the maximal stop-free run, which must contain `.m3u8` at offset at least
one; the whole match is the capture. -/
def p5M (s : List Char) : Option (List Char × List Char) :=
  let k : Nat :=
    if lcPfx "https://".data s then 8
    else if lcPfx "http://".data s then 7
    else 0
  if k == 0 then none
  else
    let run := (s.drop k).takeWhile notStop
    let rest := (s.drop k).dropWhile notStop
    if subStrFrom1 ".m3u8".data (lcStr run) then some (s.take k ++ run, rest)
    else none

/-- Pattern 6, `data-src=["\']([^"\']*\.m3u8[^"\']*)["\']`, anchored. -/
def p6M (s : List Char) : Option (List Char × List Char) :=
  if lcPfx "data-src=".data s then quotedM3u8At (s.drop 9) else none

/-- Continuation for pattern 7 after `src=`: a quoted capture (possibly
empty) followed by `[^>]*>`. -/
def p7Inner (s : List Char) : Option (List Char × List Char) :=
  match quotedAnyAt s with
  | some (content, rest) =>
    match tailToGt rest with
    | some rest2 => some (content, rest2)
    | none => none
  | none => none

/-- Pattern 7, `<iframe[^>]+src=["\']([^"\']*)["\'][^>]*>`, anchored. -/
def p7M (s : List Char) : Option (List Char × List Char) :=
  if lcPfx "<iframe".data s then
    tryMids (lcPfx "src=".data) p7Inner (s.drop 7) (s.drop 7).length
  else none

/-- Fuelled `re.findall` driver: try the anchored matcher at each position
from the left; on a match emit the capture and resume after the consumed
text.  Every matcher consumes at least one character, so fuel equal to the
input length is sufficient. -/
def scanAllAux (m : List Char → Option (List Char × List Char)) :
    Nat → List Char → List (List Char)
  | 0, _ => []
  | _ + 1, [] => []
  | fuel + 1, c :: s =>
    match m (c :: s) with
    | some (cap, rest) => cap :: scanAllAux m fuel rest
    | none => scanAllAux m fuel s

/-- All captures of an anchored matcher over a body, leftmost first. -/
def scanAll (m : List Char → Option (List Char × List Char))
    (s : List Char) : List (List Char) :=
  scanAllAux m s.length s

/-- The match lists of the seven heuristics, in source order. -/
def allPatternMatches (body : List Char) : List (List (List Char)) :=
  [scanAll p1M body, scanAll p2M body, scanAll p3M body, scanAll p4M body,
   scanAll p5M body, scanAll p6M body, scanAll p7M body]

/-- The false-positive exclusion fragments. -/
def EXCLUDES : List (List Char) :=
  ["css".data, "js".data, "icon".data, "logo".data, "image".data]

/-- The normalisation inside the candidate loop: `if not
url.startswith('http'): url = urljoin(self.base_url, url)`. -/
def candNorm (base : String) (url : List Char) : String :=
  if pfx "http".data url then String.mk url else urljoin base (String.mk url)

/-- The per-candidate body of the inner loop of `fetch_m3u8_url`: keep the
candidate only if it looks like a stream url (`'.m3u8' in url.lower() or
'stream' in url.lower() or url.startswith('http')`), absolutise it when it
does not start with `http`, then drop it when any exclusion fragment occurs
in its lowercase form; otherwise return it. -/
def candidateStep (base : String) (url : List Char) : Option String :=
  if lcSub ".m3u8".data url || lcSub "stream".data url || pfx "http".data url then
    if EXCLUDES.any (fun e => subStr e (lcStr (candNorm base url).data)) then none
    else some (candNorm base url)
  else none

/-- Scan one heuristic's candidates in order, returning the first accepted
one; excluded or non-qualifying candidates are skipped. -/
def processMatches (base : String) : List (List Char) → Option String
  | [] => none
  | u :: rest =>
    match candidateStep base u with
    | some r => some r
    | none => processMatches base rest

/-- Try each heuristic's match list in order; a heuristic whose candidates
are all skipped falls through to the next one. -/
def firstPatternHit (base : String) : List (List (List Char)) → Option String
  | [] => none
  | ms :: rest =>
    match processMatches base ms with
    | some r => some r
    | none => firstPatternHit base rest

/-- Continuation of the fallback `re.search(r'<iframe[^>]+src=["\']([^"\']+)["\']')`
after `src=`: a quoted capture that must be nonempty. -/
def iframeFbInner (s : List Char) : Option (List Char × List Char) :=
  match quotedAnyAt s with
  | some (content, rest) =>
    if content.isEmpty then none else some (content, rest)
  | none => none

/-- The fallback iframe pattern anchored at the start (case-sensitive: the
fallback `re.search` is compiled without `re.IGNORECASE`). -/
def iframeFbAt (s : List Char) : Option (List Char × List Char) :=
  if pfx "<iframe".data s then
    tryMids (pfx "src=".data) iframeFbInner (s.drop 7) (s.drop 7).length
  else none

/-- `re.search` for the fallback pattern: first matching position wins. -/
def searchIframe : List Char → Option (List Char)
  | [] => none
  | c :: s =>
    match iframeFbAt (c :: s) with
    | some r => some r.1
    | none => searchIframe s

/-- The debug fallback of `fetch_m3u8_url`: return the first iframe source,
absolutised when relative, with no exclusion filtering. -/
def iframeFallback (base : String) (body : List Char) : Option String :=
  (searchIframe body).map (fun cap =>
    if pfx "http".data cap then String.mk cap
    else urljoin base (String.mk cap))

/-- The extraction pipeline of `fetch_m3u8_url` on a successfully fetched
response body: the seven ordered heuristics with filtering and exclusion,
then the iframe fallback, then `none`. -/
def extract_m3u8 (base : String) (body : List Char) : Option String :=
  match firstPatternHit base (allPatternMatches body) with
  | some u => some u
  | none => iframeFallback base body

/-- Transport outcome of the single `session.get` issued per stream token. -/
inductive NetResult where
  | timeout : NetResult
  | connError : NetResult
  | response : Nat → List Char → NetResult

/-- `IPTVScraper.fetch_m3u8_url`: the whole body runs inside
`try ... except: return None`, so every transport failure yields `none`;
`raise_for_status` raises for 4xx and 5xx status codes; otherwise the
response body goes through the extraction heuristics. -/
def fetch_m3u8_url (base : String) (net : NetResult) : Option String :=
  match net with
  | .timeout => none
  | .connError => none
  | .response status body =>
    if 400 ≤ status ∧ status < 600 then none
    else extract_m3u8 base body

/-- The fan-out phase of `scrape_streams`: one future per channel, results
applied to the originating record (identified by its position) as futures
complete, in completion order `order`.  `outcome i` is the result of the
single `fetch_m3u8_url` call issued for the record at index `i` (its
argument is that record's `stream_id`). -/
def fanOut (chans : List Channel) (outcome : Nat → Option String)
    (order : List Nat) : List Channel :=
  order.foldl (fun acc i =>
    match acc[i]? with
    | some c => acc.set i { c with m3u8_url := outcome i }
    | none => acc) chans

/-- Per-index update of every record's `m3u8_url` field, starting at `i`. -/
def applyRes (outcome : Nat → Option String) : Nat → List Channel → List Channel
  | _, [] => []
  | i, c :: cs => { c with m3u8_url := outcome i } :: applyRes outcome (i + 1) cs

/-- `IPTVScraper.scrape_streams` with its event trace: parse (which sorts
and then saves the registry), then, when fetching is enabled, submit one
resolution request per channel and apply the outcomes in completion
order. -/
def scrape_streamsT (base : String) (st : Registry × List Channel)
    (items : List RawItem) (fetchUrls : Bool) (outcome : Nat → Option String)
    (order : List Nat) : Option (Registry × List Channel) × List Event :=
  match parse_htmlT base st items with
  | (none, tr) => (none, tr)
  | (some p, tr) =>
    if fetchUrls then
      (some (p.1, fanOut p.2 outcome order),
        tr ++ p.2.map (fun c => .evFetch c.stream_id))
    else (some p, tr)

/-- `scrape_streams` without the trace: `none` when the run raised. -/
def scrape_streams (base : String) (st : Registry × List Channel)
    (items : List RawItem) (fetchUrls : Bool) (outcome : Nat → Option String)
    (order : List Nat) : Option (Registry × List Channel) :=
  (scrape_streamsT base st items fetchUrls outcome order).1

/-- Two consecutive `scrape_streams` calls on the same instance with the
same listing document, without url fetching. -/
def scrapeTwice (base : String) (st : Registry × List Channel)
    (items : List RawItem) : Option (Registry × List Channel) :=
  match scrape_streams base st items false (fun _ => none) [] with
  | some st1 => scrape_streams base st1 items false (fun _ => none) []
  | none => none

/-- Python truthiness of the `m3u8_url` field (`None` and `''` are falsy). -/
def pyTruthy : Option String → Bool
  | none => false
  | some u => !(u == "")

/-- The `#EXTINF` header line written for a channel. -/
def extinf (c : Channel) : String :=
  "#EXTINF:-1 tvg-logo=\"" ++ c.logo ++ "\", " ++ c.name ++ "\n"

/-- Per-channel output of `IPTVScraper.save_m3u` (mode A): a directive/url
pair only when `channel['m3u8_url']` is truthy, nothing otherwise. -/
def renderA (c : Channel) : String :=
  match c.m3u8_url with
  | some u => if u = "" then "" else extinf c ++ u ++ "\n"
  | none => ""

/-- Sequential concatenation of the mode-A per-channel writes. -/
def renderAllA : List Channel → String
  | [] => ""
  | c :: cs => renderA c ++ renderAllA cs

/-- `IPTVScraper.save_m3u`: the file content written for a channel list. -/
def save_m3u (chans : List Channel) : String :=
  "#EXTM3U\n" ++ renderAllA chans

/-- Per-channel output of the `example_5_create_m3u_from_json` renderer
(mode B, from `example_usage.py`): every channel is emitted, unresolved
channels with the placeholder url built from the persistent number. -/
def renderB (c : Channel) : String :=
  match c.m3u8_url with
  | some u =>
    if u = "" then extinf c ++ "http://example.com/stream/" ++ pyKeyStr c.number ++ "\n"
    else extinf c ++ u ++ "\n"
  | none => extinf c ++ "http://example.com/stream/" ++ pyKeyStr c.number ++ "\n"

/-- Sequential concatenation of the mode-B per-channel writes. -/
def renderAllB : List Channel → String
  | [] => ""
  | c :: cs => renderB c ++ renderAllB cs

/-- The mode-B playlist content built by `example_5_create_m3u_from_json`
for a channel list. -/
def m3u_from_channels (chans : List Channel) : String :=
  "#EXTM3U\n" ++ renderAllB chans

/-- Numeric values stored in a registry, in insertion order. -/
def vals (r : Registry) : List Nat := r.map (fun p => decVal p.2)

/-- The list `[s, s+1, ..., s+n-1]`, the shape the registry's value list
takes when built from the empty registry. -/
def natsFrom (s : Nat) : Nat → List Nat
  | 0 => []
  | n + 1 => s :: natsFrom (s + 1) n

theorem decL_cons (a : Nat) (c : Char) (s : List Char) :
    decL a (c :: s) = decL (a * 10 + (c.toNat - 48)) s := rfl

theorem digitChar_toNat {r : Nat} (h : r < 10) : (digitChar r).toNat - 48 = r := by
  interval_cases r <;> decide

theorem natToStrAux_decL (fuel : Nat) : ∀ n acc, n ≤ fuel →
    decL 0 (natToStrAux fuel n acc) = decL n acc := by
  induction fuel with
  | zero =>
    intro n acc h
    interval_cases n
    rfl
  | succ fuel ih =>
    intro n acc h
    match n with
    | 0 => rfl
    | n + 1 =>
      have hlt : (n + 1) / 10 < n + 1 := Nat.div_lt_self (by omega) (by omega)
      rw [natToStrAux, ih ((n + 1) / 10) _ (by omega), decL_cons,
        digitChar_toNat (Nat.mod_lt _ (by omega))]
      congr 1
      omega

theorem decVal_natToStr (n : Nat) : decVal (natToStr n) = n := by
  unfold natToStr
  by_cases h : n = 0
  · subst h; decide
  · simp only [h, if_false]
    show decL 0 (natToStrAux n n []) = n
    rw [natToStrAux_decL n n [] le_rfl]
    rfl

theorem lookup_append_left {r : Registry} {a v : String}
    (h : List.lookup a r = some v) (t : Registry) :
    List.lookup a (r ++ t) = some v := by
  induction r with
  | nil => simp [List.lookup] at h
  | cons p r ih =>
    rw [List.cons_append]
    rw [List.lookup] at h ⊢
    by_cases hk : a == p.1
    · simpa [hk] using h
    · simp only [hk] at h ⊢
      · exact ih h

theorem lookup_append_of_none {r : Registry} {a : String}
    (h : List.lookup a r = none) (v : String) :
    List.lookup a (r ++ [(a, v)]) = some v := by
  induction r with
  | nil => simp [List.lookup]
  | cons p r ih =>
    rw [List.cons_append, List.lookup] at *
    by_cases hk : a == p.1
    · simp [hk] at h
    · simp only [hk] at h ⊢
      exact ih h

/-- C1.  `_assign_channel_number` returns the stored entry unchanged for a
name already in the mapping (leaving the registry untouched), returns
`max(values) + 1` and appends the new entry for a fresh name on a nonempty
registry, returns `1` on the empty registry, and a repeated call for the
same name yields the same numeric value with no change to the registry. -/
theorem claim1_lookupOrAssign :
    (∀ (r : Registry) (name v : String), List.lookup name r = some v →
        assignChannelNumber r name = (.pstr v, r))
  ∧ (∀ (r : Registry) (name : String), List.lookup name r = none → r ≠ [] →
        assignChannelNumber r name =
          (.pint (maxVal r + 1), r ++ [(name, natToStr (maxVal r + 1))]))
  ∧ (∀ name : String, assignChannelNumber [] name = (.pint 1, [(name, natToStr 1)]))
  ∧ (∀ (r : Registry) (name : String),
        pyVal (assignChannelNumber (assignChannelNumber r name).2 name).1
          = pyVal (assignChannelNumber r name).1
      ∧ (assignChannelNumber (assignChannelNumber r name).2 name).2
          = (assignChannelNumber r name).2) := by
  refine ⟨?_, ?_, ?_, ?_⟩
  · intro r name v h
    simp [assignChannelNumber, h]
  · intro r name h hne
    match r with
    | [] => exact absurd rfl hne
    | p :: r => simp [assignChannelNumber, h, List.isEmpty]
  · intro name
    rfl
  · intro r name
    cases hl : List.lookup name r with
    | some v => simp [assignChannelNumber, hl]
    | none =>
      have h1 : ∃ nx, assignChannelNumber r name = (.pint nx, r ++ [(name, natToStr nx)]) :=
        ⟨if r.isEmpty then 1 else maxVal r + 1, by simp [assignChannelNumber, hl]⟩
      obtain ⟨nx, h1⟩ := h1
      have h2 := lookup_append_of_none hl (natToStr nx)
      rw [h1]
      exact ⟨by simp [assignChannelNumber, h2, pyVal, decVal_natToStr],
        by simp [assignChannelNumber, h2]⟩

/-- Witness for C1 at concrete inputs. -/
theorem claim1_lookupOrAssign_witness :
    assignChannelNumber [("A", "2")] "A" = (.pstr "2", [("A", "2")])
  ∧ assignChannelNumber [("A", "2")] "B" = (.pint 3, [("A", "2"), ("B", "3")])
  ∧ assignChannelNumber [] "C" = (.pint 1, [("C", "1")])
  ∧ pyVal (assignChannelNumber (assignChannelNumber [] "C").2 "C").1
      = pyVal (assignChannelNumber [] "C").1 := by
  obtain ⟨h1, h2, h3, h4⟩ := claim1_lookupOrAssign
  refine ⟨h1 [("A", "2")] "A" "2" (by decide), ?_, h3 "C", (h4 [] "C").1⟩
  have := h2 [("A", "2")] "B" (by decide) (by decide)
  simpa using this

/-- C6.  `fetch_m3u8_url` yields an absent result on every transport-level
failure: timeout, connection error, and any non-success (4xx or 5xx) HTTP
status; being a total function into `Option`, it never raises. -/
theorem claim6_transport_absent :
    (∀ base : String, fetch_m3u8_url base .timeout = none)
  ∧ (∀ base : String, fetch_m3u8_url base .connError = none)
  ∧ (∀ (base : String) (status : Nat) (body : List Char),
        400 ≤ status → status < 600 →
        fetch_m3u8_url base (.response status body) = none) := by
  refine ⟨fun _ => rfl, fun _ => rfl, fun base s b h1 h2 => ?_⟩
  simp [fetch_m3u8_url, h1, h2]

/-- Witness for C6 at concrete inputs. -/
theorem claim6_transport_absent_witness :
    fetch_m3u8_url "http://103.144.89.251" .timeout = none
  ∧ fetch_m3u8_url "http://103.144.89.251"
      (.response 404 "src=\"a.m3u8\"".data) = none
  ∧ fetch_m3u8_url "http://103.144.89.251"
      (.response 500 "src=\"a.m3u8\"".data) = none := by
  obtain ⟨h1, _, h3⟩ := claim6_transport_absent
  exact ⟨h1 _, h3 _ 404 _ (by decide) (by decide), h3 _ 500 _ (by decide) (by decide)⟩

/-- C2 fails on the code: with the persisted registry mapping A to "2" and
B to "10" (string values, as the mapping file stores them), a run over a
listing containing A and B emits the catalog in the order B, A — persistent
numbers [10, 2], lexicographically sorted by the string keys instead of
ascending numerically; and with registry mapping only B to "2", the same
listing makes the sort compare an int key with a str key, raising a
`TypeError` so that the run produces no catalog at all. -/
theorem claim2_ordering_failing_eval :
    (parse_html "http://103.144.89.251" ([("A", "2"), ("B", "10")], [])
        [⟨some ⟨some "play?stream=7"⟩, some ⟨some "A", some "a.png"⟩⟩,
         ⟨some ⟨some "play?stream=8"⟩, some ⟨some "B", some "b.png"⟩⟩]).map
      (fun r => r.2.map (fun c => pyVal c.number)) = some [10, 2]
  ∧ (parse_html "http://103.144.89.251" ([("B", "2")], [])
        [⟨some ⟨some "play?stream=7"⟩, some ⟨some "A", some "a.png"⟩⟩,
         ⟨some ⟨some "play?stream=8"⟩, some ⟨some "B", some "b.png"⟩⟩]).isSome
      = false := by
  exact ⟨by decide, by decide⟩

/-- C10 fails as stated: on a fresh registry the first `scrape_streams` run
stores an int channel number while the second run's re-parse of the same
name yields the stored string, so the second run's sort mixes int and str
keys and raises a `TypeError` — there is no returned list in which each
channel appears twice.  The first run by itself succeeds. -/
theorem claim10_counterexample :
    scrapeTwice "http://103.144.89.251" ([], [])
      [⟨some ⟨some "play?stream=7"⟩, some ⟨some "X", some "x.png"⟩⟩] = none
  ∧ (scrape_streams "http://103.144.89.251" ([], [])
      [⟨some ⟨some "play?stream=7"⟩, some ⟨some "X", some "x.png"⟩⟩]
      false (fun _ => none) []).isSome = true := by
  exact ⟨by decide, by decide⟩

theorem renderA_falsy {c : Channel} (h : pyTruthy c.m3u8_url = false) :
    renderA c = "" := by
  cases hu : c.m3u8_url with
  | none => simp [renderA, hu]
  | some u =>
    rw [hu] at h
    have : u = "" := by
      by_contra hne
      simp [pyTruthy, hne] at h
    simp [renderA, hu, this]

theorem renderAllA_filter : ∀ cs : List Channel,
    renderAllA (cs.filter (fun c => pyTruthy c.m3u8_url)) = renderAllA cs := by
  intro cs
  induction cs with
  | nil => rfl
  | cons c t ih =>
    by_cases hp : pyTruthy c.m3u8_url = true
    · simp only [List.filter_cons, hp, if_true, renderAllA, ih]
    · have hf : pyTruthy c.m3u8_url = false := by
        revert hp; cases pyTruthy c.m3u8_url <;> simp
      simp only [List.filter_cons, hf, Bool.false_eq_true, if_false, renderAllA, ih,
        renderA_falsy hf, String.empty_append]

/-- C9.  The repository ships two distinct, explicitly chosen playlist
output modes: `IPTVScraper.save_m3u` (mode A) writes a directive/url pair
only for channels whose resolved url is truthy — its output equals the
output on the resolved-only sublist — while the renderer of
`example_5_create_m3u_from_json` (mode B) writes every channel, rendering
an unresolved channel with the placeholder url built from its persistent
number; on a resolved channel both modes write the same pair. -/
theorem claim9_two_modes :
    (∀ chans : List Channel,
        save_m3u chans = save_m3u (chans.filter (fun c => pyTruthy c.m3u8_url)))
  ∧ (∀ c : Channel, pyTruthy c.m3u8_url = false →
        m3u_from_channels [c] =
          "#EXTM3U\n" ++ extinf c ++ "http://example.com/stream/"
            ++ pyKeyStr c.number ++ "\n"
      ∧ save_m3u [c] = "#EXTM3U\n")
  ∧ (∀ (c : Channel) (u : String), c.m3u8_url = some u → u ≠ "" →
        save_m3u [c] = "#EXTM3U\n" ++ extinf c ++ u ++ "\n"
      ∧ m3u_from_channels [c] = "#EXTM3U\n" ++ extinf c ++ u ++ "\n") := by
  refine ⟨?_, ?_, ?_⟩
  · intro chans
    rw [save_m3u, save_m3u, renderAllA_filter]
  · intro c h
    constructor
    · cases hu : c.m3u8_url with
      | none =>
        simp [m3u_from_channels, renderAllB, renderB, hu, String.append_empty,
          String.append_assoc]
      | some u =>
        rw [hu] at h
        have : u = "" := by
          by_contra hne
          simp [pyTruthy, hne] at h
        subst this
        simp [m3u_from_channels, renderAllB, renderB, hu, String.append_empty,
          String.append_assoc]
    · rw [save_m3u, renderAllA, renderAllA, renderA_falsy h, String.empty_append,
        String.append_empty]
  · intro c u hu hne
    constructor
    · simp [save_m3u, renderAllA, renderA, hu, hne, String.append_empty,
        String.append_assoc]
    · simp [m3u_from_channels, renderAllB, renderB, hu, hne, String.append_empty,
        String.append_assoc]

/-- Witness for C9 at concrete channels. -/
theorem claim9_two_modes_witness :
    save_m3u [⟨.pint 3, "N", "7", "L", none⟩]
      = save_m3u (List.filter (fun c => pyTruthy c.m3u8_url) [⟨.pint 3, "N", "7", "L", none⟩])
  ∧ m3u_from_channels [⟨.pint 3, "N", "7", "L", none⟩]
      = "#EXTM3U\n" ++ extinf ⟨.pint 3, "N", "7", "L", none⟩
        ++ "http://example.com/stream/" ++ pyKeyStr (.pint 3) ++ "\n"
  ∧ save_m3u [⟨.pstr "12", "N", "7", "L", some "http://u/x.m3u8"⟩]
      = "#EXTM3U\n" ++ extinf ⟨.pstr "12", "N", "7", "L", some "http://u/x.m3u8"⟩
        ++ "http://u/x.m3u8" ++ "\n" := by
  obtain ⟨h1, h2, h3⟩ := claim9_two_modes
  exact ⟨h1 _, (h2 ⟨.pint 3, "N", "7", "L", none⟩ (by decide)).1,
    (h3 ⟨.pstr "12", "N", "7", "L", some "http://u/x.m3u8"⟩ "http://u/x.m3u8"
      rfl (by decide)).1⟩

/-- C4.  A listing entry whose anchor carries no recognisable numeric
stream token is skipped without changing the parse state, and the parse of
the surrounding document continues exactly as if the entry were absent
(nothing is raised: the step is a total function); an entry whose image has
no alternate-text attribute is included with the synthetic display name
`Channel <token>`. -/
theorem claim4_parser_robustness :
    (∀ (base : String) (st : (Registry × List Channel) × List Event)
        (it : RawItem) (l : RawLink),
        it.link = some l → streamSearch (l.onclick.getD "").data = none →
        parseStepT base st it = st)
  ∧ (∀ (base : String) (st : (Registry × List Channel) × List Event)
        (pre post : List RawItem) (it : RawItem) (l : RawLink),
        it.link = some l → streamSearch (l.onclick.getD "").data = none →
        List.foldl (parseStepT base) st (pre ++ it :: post)
          = List.foldl (parseStepT base) st (pre ++ post))
  ∧ (∀ (base : String) (reg : Registry) (cs : List Channel) (evs : List Event)
        (it : RawItem) (l : RawLink) (img : RawImg) (tok : List Char),
        it.link = some l → streamSearch (l.onclick.getD "").data = some tok →
        it.img = some img → img.alt = none →
        parseStepT base ((reg, cs), evs) it =
          (((assignChannelNumber reg ("Channel " ++ String.mk tok)).2,
            cs ++ [⟨(assignChannelNumber reg ("Channel " ++ String.mk tok)).1,
                   "Channel " ++ String.mk tok, String.mk tok,
                   urljoin base (img.src.getD ""), none⟩]),
            evs ++ [.evParse ("Channel " ++ String.mk tok)])) := by
  have hskip : ∀ (base : String) (st : (Registry × List Channel) × List Event)
      (it : RawItem) (l : RawLink),
      it.link = some l → streamSearch (l.onclick.getD "").data = none →
      parseStepT base st it = st := by
    intro base st it l h1 h2
    simp [parseStepT, itemParsed, h1, h2]
  refine ⟨hskip, ?_, ?_⟩
  · intro base st pre post it l h1 h2
    rw [List.foldl_append, List.foldl_append, List.foldl_cons,
      hskip base _ it l h1 h2]
  · intro base reg cs evs it l img tok h1 h2 h3 h4
    simp [parseStepT, itemParsed, h1, h2, h3, h4]

/-- Witness for C4 at concrete listing entries. -/
theorem claim4_parser_robustness_witness :
    parseStepT "http://103.144.89.251" (([], []), [])
      ⟨some ⟨some "play?noidea"⟩, some ⟨some "A", some "a.png"⟩⟩ = (([], []), [])
  ∧ List.foldl (parseStepT "http://103.144.89.251") (([], []), [])
      [⟨some ⟨some "play?noidea"⟩, some ⟨some "A", some "a.png"⟩⟩,
       ⟨some ⟨some "play?stream=7"⟩, some ⟨some "A", some "a.png"⟩⟩]
    = List.foldl (parseStepT "http://103.144.89.251") (([], []), [])
      [⟨some ⟨some "play?stream=7"⟩, some ⟨some "A", some "a.png"⟩⟩]
  ∧ parseStepT "http://103.144.89.251" (([], []), [])
      ⟨some ⟨some "play?stream=9"⟩, some ⟨none, some "l.png"⟩⟩ =
      (((assignChannelNumber [] ("Channel " ++ String.mk "9".data)).2,
        [] ++ [⟨(assignChannelNumber [] ("Channel " ++ String.mk "9".data)).1,
               "Channel " ++ String.mk "9".data, String.mk "9".data,
               urljoin "http://103.144.89.251" "l.png", none⟩]),
        [] ++ [.evParse ("Channel " ++ String.mk "9".data)]) := by
  obtain ⟨h1, h2, h3⟩ := claim4_parser_robustness
  refine ⟨h1 _ _ _ ⟨some "play?noidea"⟩ rfl (by decide), ?_, ?_⟩
  · exact h2 "http://103.144.89.251" (([], []), []) []
      [⟨some ⟨some "play?stream=7"⟩, some ⟨some "A", some "a.png"⟩⟩]
      ⟨some ⟨some "play?noidea"⟩, some ⟨some "A", some "a.png"⟩⟩
      ⟨some "play?noidea"⟩ rfl (by decide)
  · exact h3 "http://103.144.89.251" [] [] []
      ⟨some ⟨some "play?stream=9"⟩, some ⟨none, some "l.png"⟩⟩
      ⟨some "play?stream=9"⟩ ⟨none, some "l.png"⟩ "9".data rfl (by decide) rfl rfl

theorem fanStep_getElem (acc : List Channel) (outcome : Nat → Option String)
    (i j : Nat) :
    (match acc[i]? with
     | some c => acc.set i { c with m3u8_url := outcome i }
     | none => acc)[j]? =
    if i = j then acc[j]?.map (fun c => { c with m3u8_url := outcome j })
    else acc[j]? := by
  cases hc : acc[i]? with
  | none =>
    by_cases hij : i = j
    · subst hij
      simp [hc]
    · simp [hij]
  | some c =>
    have hlen : i < acc.length := by
      by_contra hnl
      rw [List.getElem?_eq_none (by omega)] at hc
      exact Option.noConfusion hc
    by_cases hij : i = j
    · subst hij
      simp [List.getElem?_set_eq_of_lt _ hlen, hc]
    · simp [List.getElem?_set_ne hij, hij]

theorem fanOut_getElem (outcome : Nat → Option String) :
    ∀ (order : List Nat) (acc : List Channel) (j : Nat),
    (fanOut acc outcome order)[j]? =
      if j ∈ order then acc[j]?.map (fun c => { c with m3u8_url := outcome j })
      else acc[j]? := by
  intro order
  induction order with
  | nil =>
    intro acc j
    simp [fanOut]
  | cons i rest ih =>
    intro acc j
    have hstep : fanOut acc outcome (i :: rest) =
        fanOut (match acc[i]? with
          | some c => acc.set i { c with m3u8_url := outcome i }
          | none => acc) outcome rest := rfl
    rw [hstep, ih, fanStep_getElem]
    by_cases hij : i = j
    · subst hij
      by_cases hr : i ∈ rest
      · simp [hr, Option.map_map]
        cases acc[i]? <;> simp
      · simp [hr]
    · by_cases hr : j ∈ rest
      · have hm : j ∈ i :: rest := List.mem_cons_of_mem _ hr
        simp [hij, hr, hm]
      · have hm : j ∉ i :: rest := by
          intro hc
          rcases List.mem_cons.mp hc with h | h
          · exact hij h.symm
          · exact hr h
        simp [hij, hr, hm]

theorem applyRes_getElem (outcome : Nat → Option String) :
    ∀ (cs : List Channel) (i j : Nat),
    (applyRes outcome i cs)[j]? =
      cs[j]?.map (fun c => { c with m3u8_url := outcome (i + j) }) := by
  intro cs
  induction cs with
  | nil =>
    intro i j
    simp [applyRes]
  | cons c t ih =>
    intro i j
    cases j with
    | zero => simp [applyRes]
    | succ k =>
      have : i + (k + 1) = (i + 1) + k := by omega
      simp [applyRes, ih (i + 1) k, this]

theorem applyRes_length (outcome : Nat → Option String) :
    ∀ (i : Nat) (cs : List Channel), (applyRes outcome i cs).length = cs.length := by
  intro i cs
  induction cs generalizing i with
  | nil => rfl
  | cons c t ih => simp [applyRes, ih]

/-- C7.  The fan-out phase produces exactly one output entry per input
record: whenever the completion order is a permutation of the record
indices (one future per record, no retries), the result equals the
per-index application of each record's own resolution outcome — entry `j`
is record `j` with only its `m3u8_url` field set to outcome `j`, regardless
of completion order, and no record's failure disturbs another entry. -/
theorem claim7_fanout_isolation (chans : List Channel)
    (outcome : Nat → Option String) (order : List Nat)
    (h : order.Perm (List.range chans.length)) :
    fanOut chans outcome order = applyRes outcome 0 chans
  ∧ (fanOut chans outcome order).length = chans.length
  ∧ ∀ j : Nat, (fanOut chans outcome order)[j]? =
      chans[j]?.map (fun c => { c with m3u8_url := outcome j }) := by
  have hm : ∀ j : Nat, j ∈ order ↔ j < chans.length := by
    intro j
    rw [h.mem_iff, List.mem_range]
  have hget : ∀ j : Nat, (fanOut chans outcome order)[j]? =
      chans[j]?.map (fun c => { c with m3u8_url := outcome j }) := by
    intro j
    rw [fanOut_getElem]
    by_cases hj : j < chans.length
    · simp [(hm j).2 hj]
    · have h0 : j ∉ order := fun hc => hj ((hm j).1 hc)
      have h1 : chans[j]? = none := List.getElem?_eq_none (by omega)
      simp [h0, h1]
  have he : fanOut chans outcome order = applyRes outcome 0 chans := by
    apply List.ext_getElem?
    intro j
    rw [hget j, applyRes_getElem]
    simp
  exact ⟨he, by rw [he, applyRes_length], hget⟩

/-- Witness for C7: two records resolved in reversed completion order. -/
theorem claim7_fanout_isolation_witness :
    ([1, 0] : List Nat).Perm (List.range 2)
  ∧ fanOut [⟨.pint 1, "A", "7", "la", none⟩, ⟨.pint 2, "B", "8", "lb", none⟩]
      (fun i => if i = 0 then some "http://u/a.m3u8" else none) [1, 0]
    = applyRes (fun i => if i = 0 then some "http://u/a.m3u8" else none) 0
      [⟨.pint 1, "A", "7", "la", none⟩, ⟨.pint 2, "B", "8", "lb", none⟩] := by
  refine ⟨by decide, ?_⟩
  exact (claim7_fanout_isolation
    [⟨.pint 1, "A", "7", "la", none⟩, ⟨.pint 2, "B", "8", "lb", none⟩]
    (fun i => if i = 0 then some "http://u/a.m3u8" else none) [1, 0] (by decide)).1

theorem natsFrom_snoc : ∀ (n s : Nat), natsFrom s (n + 1) = natsFrom s n ++ [s + n] := by
  intro n
  induction n with
  | zero => intro s; simp [natsFrom]
  | succ n ih =>
    intro s
    have h1 : natsFrom s (n + 2) = s :: natsFrom (s + 1) (n + 1) := rfl
    rw [h1, ih (s + 1)]
    have h2 : s + 1 + n = s + (n + 1) := by omega
    simp [natsFrom, h2]

theorem mem_natsFrom : ∀ (n s m : Nat), m ∈ natsFrom s n ↔ s ≤ m ∧ m < s + n := by
  intro n
  induction n with
  | zero => intro s m; simp [natsFrom]
  | succ n ih =>
    intro s m
    simp only [natsFrom, List.mem_cons, ih (s + 1)]
    omega

theorem length_natsFrom : ∀ (n s : Nat), (natsFrom s n).length = n := by
  intro n
  induction n with
  | zero => intro s; rfl
  | succ n ih => intro s; simp [natsFrom, ih]

theorem maxVal_foldl (r : Registry) : maxVal r = (vals r).foldl max 0 := by
  rw [maxVal, vals, List.foldl_map]

theorem foldl_max_natsFrom : ∀ n : Nat, (natsFrom 1 n).foldl max 0 = n := by
  intro n
  induction n with
  | zero => rfl
  | succ n ih =>
    rw [natsFrom_snoc, List.foldl_append, ih]
    simp
    omega

theorem maxVal_append (r : Registry) (p : String × String) :
    maxVal (r ++ [p]) = max (maxVal r) (decVal p.2) := by
  rw [maxVal, List.foldl_append]
  rfl

theorem maxVal_of_inv {r : Registry} (h : vals r = natsFrom 1 r.length) :
    maxVal r = r.length := by
  rw [maxVal_foldl, h, foldl_max_natsFrom]

theorem vals_assign {r : Registry} (h : vals r = natsFrom 1 r.length) (name : String) :
    vals (assignChannelNumber r name).2
      = natsFrom 1 (assignChannelNumber r name).2.length := by
  cases hl : List.lookup name r with
  | some v => simpa [assignChannelNumber, hl] using h
  | none =>
    have hnext : (if r.isEmpty then 1 else maxVal r + 1) = r.length + 1 := by
      cases hr : r with
      | nil => simp
      | cons p t =>
        have : r.isEmpty = false := by rw [hr]; rfl
        rw [← hr]
        simp [this, maxVal_of_inv h]
    simp only [assignChannelNumber, hl]
    rw [hnext]
    show vals (r ++ [(name, natToStr (r.length + 1))])
      = natsFrom 1 (r ++ [(name, natToStr (r.length + 1))]).length
    rw [vals, List.map_append, ← vals, h]
    simp [decVal_natToStr, natsFrom_snoc, length_natsFrom, Nat.add_comm]

theorem vals_runAssign (names : List String) :
    vals (runAssign names) = natsFrom 1 (runAssign names).length := by
  have aux : ∀ (ns : List String) (r : Registry), vals r = natsFrom 1 r.length →
      vals (ns.foldl (fun r n => (assignChannelNumber r n).2) r)
        = natsFrom 1 (ns.foldl (fun r n => (assignChannelNumber r n).2) r).length := by
    intro ns
    induction ns with
    | nil => intro r h; exact h
    | cons n ns ih =>
      intro r h
      exact ih _ (vals_assign h n)
  exact aux names [] rfl

theorem lookup_mem_vals : ∀ {r : Registry} {a v : String},
    List.lookup a r = some v → decVal v ∈ vals r := by
  intro r
  induction r with
  | nil => intro a v h; simp [List.lookup] at h
  | cons p t ih =>
    intro a v h
    rw [List.lookup] at h
    by_cases hk : a == p.1
    · simp only [hk, if_true] at h
      cases h
      simp [vals]
    · simp only [hk] at h
      have := ih h
      simp only [vals, List.map_cons, List.mem_cons]
      right
      exact this

theorem lookup_vals_distinct : ∀ (r : Registry) (s : Nat),
    vals r = natsFrom s r.length →
    ∀ a b va vb, a ≠ b → List.lookup a r = some va → List.lookup b r = some vb →
    decVal va ≠ decVal vb := by
  intro r
  induction r with
  | nil =>
    intro s h a b va vb hab ha hb
    simp [List.lookup] at ha
  | cons p t ih =>
    intro s h a b va vb hab ha hb
    have hh : decVal p.2 = s ∧ vals t = natsFrom (s + 1) t.length := by
      have h1 : decVal p.2 :: vals t = s :: natsFrom (s + 1) t.length := by
        simpa [vals, natsFrom] using h
      exact ⟨(List.cons.injEq _ _ _ _ ▸ h1).1, (List.cons.injEq _ _ _ _ ▸ h1).2⟩
    rw [List.lookup] at ha hb
    by_cases hka : a == p.1 <;> by_cases hkb : b == p.1
    · exact absurd (by
        have e1 : a = p.1 := by simpa using hka
        have e2 : b = p.1 := by simpa using hkb
        rw [e1, e2]) hab
    · simp only [hka, if_true] at ha
      cases ha
      simp only [hkb] at hb
      have hmem := lookup_mem_vals hb
      rw [hh.2, mem_natsFrom] at hmem
      rw [hh.1]
      omega
    · simp only [hkb, if_true] at hb
      cases hb
      simp only [hka] at ha
      have hmem := lookup_mem_vals ha
      rw [hh.2, mem_natsFrom] at hmem
      rw [hh.1]
      omega
    · simp only [hka, hkb] at ha hb
      exact ih (s + 1) hh.2 a b va vb hab ha hb

/-- C3.  Across any sequence of `_assign_channel_number` calls from the
empty registry: distinct display names always hold pairwise distinct
numeric values, the maximum assigned value never decreases at any call, a
call never removes registry entries (the old registry is a prefix of the
new one) and never changes the value stored for an existing name, and the
number handed to a fresh name differs from every number already stored. -/
theorem claim3_monotonic_uniqueness :
    (∀ (names : List String) (a b va vb : String), a ≠ b →
        List.lookup a (runAssign names) = some va →
        List.lookup b (runAssign names) = some vb →
        decVal va ≠ decVal vb)
  ∧ (∀ (r : Registry) (name : String),
        maxVal r ≤ maxVal (assignChannelNumber r name).2)
  ∧ (∀ (r : Registry) (name : String), r <+: (assignChannelNumber r name).2)
  ∧ (∀ (r : Registry) (a v name : String), List.lookup a r = some v →
        List.lookup a (assignChannelNumber r name).2 = some v)
  ∧ (∀ (names : List String) (name : String),
        List.lookup name (runAssign names) = none →
        ∀ v ∈ vals (runAssign names),
          v ≠ pyVal (assignChannelNumber (runAssign names) name).1) := by
  refine ⟨?_, ?_, ?_, ?_, ?_⟩
  · intro names a b va vb hab ha hb
    exact lookup_vals_distinct (runAssign names) 1 (vals_runAssign names)
      a b va vb hab ha hb
  · intro r name
    cases hl : List.lookup name r with
    | some v => simp [assignChannelNumber, hl]
    | none =>
      simp only [assignChannelNumber, hl]
      rw [maxVal_append]
      exact Nat.le_max_left _ _
  · intro r name
    cases hl : List.lookup name r with
    | some v => simp [assignChannelNumber, hl]
    | none =>
      simp only [assignChannelNumber, hl]
      exact List.prefix_append r _
  · intro r a v name h
    cases hl : List.lookup name r with
    | some w => simpa [assignChannelNumber, hl] using h
    | none =>
      simp only [assignChannelNumber, hl]
      exact lookup_append_left h _
  · intro names name hl v hv
    have hinv := vals_runAssign names
    have hnext : (if (runAssign names).isEmpty then 1 else maxVal (runAssign names) + 1)
        = (runAssign names).length + 1 := by
      cases hr : runAssign names with
      | nil => simp
      | cons p t =>
        have : (runAssign names).isEmpty = false := by rw [hr]; rfl
        rw [← hr]
        simp [this, maxVal_of_inv hinv]
    simp only [assignChannelNumber, hl, pyVal, hnext]
    rw [hinv, mem_natsFrom] at hv
    omega

/-- Witness for C3 at a concrete call sequence. -/
theorem claim3_monotonic_uniqueness_witness :
    decVal "1" ≠ decVal "2"
  ∧ maxVal [("A", "2")] ≤ maxVal (assignChannelNumber [("A", "2")] "B").2
  ∧ [("A", "2")] <+: (assignChannelNumber [("A", "2")] "B").2
  ∧ List.lookup "x" (assignChannelNumber (runAssign ["x", "y"]) "z").2 = some "1"
  ∧ ∀ v ∈ vals (runAssign ["x", "y"]),
      v ≠ pyVal (assignChannelNumber (runAssign ["x", "y"]) "z").1 := by
  obtain ⟨h1, h2, h3, h4, h5⟩ := claim3_monotonic_uniqueness
  exact ⟨h1 ["x", "y"] "x" "y" "1" "2" (by decide) (by decide) (by decide),
    h2 [("A", "2")] "B", h3 [("A", "2")] "B",
    h4 (runAssign ["x", "y"]) "x" "1" "z" (by decide),
    h5 ["x", "y"] "z" (by decide)⟩

theorem parse_events_all (base : String) :
    ∀ (items : List RawItem) (st : (Registry × List Channel) × List Event),
    (∀ e ∈ st.2, isParseEv e = true) →
    ∀ e ∈ (items.foldl (parseStepT base) st).2, isParseEv e = true := by
  intro items
  induction items with
  | nil => intro st h; exact h
  | cons it items ih =>
    intro st h
    rw [List.foldl_cons]
    apply ih
    cases hi : itemParsed base it with
    | none => simpa [parseStepT, hi] using h
    | some e =>
      intro ev hev
      simp only [parseStepT, hi, List.mem_append, List.mem_singleton] at hev
      rcases hev with h1 | h1
      · exact h _ h1
      · rw [h1]; rfl

theorem parseEv_not_save {e : Event} (h : isParseEv e = true) : isSaveEv e = false := by
  cases e <;> simp_all [isParseEv, isSaveEv]

theorem fetchEv_not_save {e : Event} (h : isFetchEv e = true) : isSaveEv e = false := by
  cases e <;> simp_all [isFetchEv, isSaveEv]

/-- C8 (amended).  In every run whose parse phase completes (the sort does
not raise a `TypeError`), the full registry is saved exactly once: the
trace decomposes as parse events, then the single save event carrying the
post-parse registry, then the resolution requests — so the save happens
after parsing, before any network resolution, and unconditionally, even
when no new name was added. -/
theorem claim8_save_once_amended (base : String) (st : Registry × List Channel)
    (items : List RawItem) (fetchUrls : Bool) (outcome : Nat → Option String)
    (order : List Nat) (reg' : Registry) (chans : List Channel)
    (h : (parse_htmlT base st items).1 = some (reg', chans)) :
    ∃ P F : List Event,
      (scrape_streamsT base st items fetchUrls outcome order).2
        = P ++ Event.evSave reg' :: F
    ∧ (∀ e ∈ P, isParseEv e = true)
    ∧ (∀ e ∈ F, isFetchEv e = true)
    ∧ (scrape_streamsT base st items fetchUrls outcome order).2.countP
        (fun e => isSaveEv e) = 1 := by
  cases hs : pySortBy (fun c => c.number)
      (items.foldl (parseStepT base) (st, [])).1.2 with
  | none =>
    rw [parse_htmlT] at h
    simp only [hs] at h
    exact Option.noConfusion h
  | some sorted =>
    have hp : parse_htmlT base st items =
        (some ((items.foldl (parseStepT base) (st, [])).1.1, sorted),
          (items.foldl (parseStepT base) (st, [])).2
            ++ [Event.evSave (items.foldl (parseStepT base) (st, [])).1.1]) := by
      rw [parse_htmlT]
      simp only [hs]
    have hreg : (items.foldl (parseStepT base) (st, [])).1.1 = reg' := by
      rw [parse_htmlT] at h
      simp only [hs] at h
      exact (Prod.mk.injEq _ _ _ _ ▸ Option.some.injEq _ _ ▸ h).1
    have hP : ∀ e ∈ (items.foldl (parseStepT base) (st, [])).2, isParseEv e = true :=
      parse_events_all base items (st, []) (by intro e he; simp at he)
    rw [hreg] at hp
    have hcount0 : ((items.foldl (parseStepT base) (st, [])).2).countP
        (fun e => isSaveEv e) = 0 := by
      rw [List.countP_eq_zero]
      intro e he
      simp [parseEv_not_save (hP e he)]
    cases fetchUrls with
    | false =>
      have htr : (scrape_streamsT base st items false outcome order).2
          = (items.foldl (parseStepT base) (st, [])).2 ++ [Event.evSave reg'] := by
        rw [scrape_streamsT, hp]
        rfl
      refine ⟨(items.foldl (parseStepT base) (st, [])).2, [], htr, hP, by simp, ?_⟩
      rw [htr, List.countP_append, hcount0]
      rfl
    | true =>
      obtain ⟨pp, hchans⟩ : ∃ pp, parse_htmlT base st items =
          (some (reg', pp), (items.foldl (parseStepT base) (st, [])).2
            ++ [Event.evSave reg']) := ⟨sorted, hp⟩
      refine ⟨(items.foldl (parseStepT base) (st, [])).2,
        pp.map (fun c => .evFetch c.stream_id), ?_, hP, ?_, ?_⟩
      · rw [scrape_streamsT, hchans]
        simp [List.append_assoc]
      · intro e he
        rcases List.mem_map.mp he with ⟨c, _, rfl⟩
        rfl
      · rw [scrape_streamsT, hchans]
        simp only [if_true, List.countP_append, List.countP_cons, hcount0]
        have : (pp.map (fun c => Event.evFetch c.stream_id)).countP
            (fun e => isSaveEv e) = 0 := by
          rw [List.countP_eq_zero]
          intro e he
          rcases List.mem_map.mp he with ⟨c, _, rfl⟩
          simp [isSaveEv]
        simp [this, isSaveEv]

/-- C8 fails as literally stated ("in every run"): in a run over a listing
mixing a fresh name (int key) with an already-registered name (str key),
the sort raises before `_save_channel_mapping` is reached, so the registry
is persisted zero times in that run. -/
theorem claim8_counterexample :
    ((scrape_streamsT "http://103.144.89.251" ([("B", "2")], [])
        [⟨some ⟨some "play?stream=7"⟩, some ⟨some "A", some "a.png"⟩⟩,
         ⟨some ⟨some "play?stream=8"⟩, some ⟨some "B", some "b.png"⟩⟩]
        true (fun _ => none) []).2.countP (fun e => isSaveEv e)) = 0
  ∧ (scrape_streamsT "http://103.144.89.251" ([("B", "2")], [])
        [⟨some ⟨some "play?stream=7"⟩, some ⟨some "A", some "a.png"⟩⟩,
         ⟨some ⟨some "play?stream=8"⟩, some ⟨some "B", some "b.png"⟩⟩]
        true (fun _ => none) []).1 = none := by
  exact ⟨by decide, by decide⟩

/-- Witness for C8 (amended) on a concrete completing run. -/
theorem claim8_save_once_amended_witness :
    ∃ P F : List Event,
      (scrape_streamsT "http://h" ([], [])
        [⟨some ⟨some "play?stream=7"⟩, some ⟨some "A", some "a.png"⟩⟩]
        true (fun _ => none) [0]).2
        = P ++ Event.evSave [("A", "1")] :: F
    ∧ (∀ e ∈ P, isParseEv e = true)
    ∧ (∀ e ∈ F, isFetchEv e = true)
    ∧ (scrape_streamsT "http://h" ([], [])
        [⟨some ⟨some "play?stream=7"⟩, some ⟨some "A", some "a.png"⟩⟩]
        true (fun _ => none) [0]).2.countP (fun e => isSaveEv e) = 1 :=
  claim8_save_once_amended "http://h" ([], [])
    [⟨some ⟨some "play?stream=7"⟩, some ⟨some "A", some "a.png"⟩⟩]
    true (fun _ => none) [0] [("A", "1")]
    [⟨.pint 1, "A", "7", "http://h/a.png", none⟩] (by decide)

theorem pyInsert_perm {α : Type} {key : α → PyKey} {x : α} :
    ∀ {l l' : List α}, pyInsert key x l = some l' → l'.Perm (x :: l) := by
  intro l
  induction l with
  | nil =>
    intro l' h
    rw [pyInsert] at h
    cases h
    exact List.Perm.refl _
  | cons y ys ih =>
    intro l' h
    rw [pyInsert] at h
    cases hc : pyLt (key x) (key y) with
    | none =>
      rw [hc] at h
      exact Option.noConfusion h
    | some b =>
      rw [hc] at h
      cases b with
      | true =>
        simp only [Option.some.injEq] at h
        rw [← h]
      | false =>
        cases hi : pyInsert key x ys with
        | none =>
          rw [hi] at h
          exact Option.noConfusion h
        | some l'' =>
          rw [hi] at h
          simp only [Option.map_some', Option.some.injEq] at h
          rw [← h]
          exact ((ih hi).cons y).trans (List.Perm.swap x y ys)

theorem pySort_foldl_none {α : Type} (key : α → PyKey) :
    ∀ l : List α, List.foldl (fun a x => a.bind (pyInsert key x)) none l = none := by
  intro l
  induction l with
  | nil => rfl
  | cons x xs ih => simpa using ih

theorem pySort_aux_perm {α : Type} (key : α → PyKey) :
    ∀ (l acc res : List α),
      List.foldl (fun a x => a.bind (pyInsert key x)) (some acc) l = some res →
      res.Perm (acc ++ l) := by
  intro l
  induction l with
  | nil =>
    intro acc res h
    simp only [List.foldl_nil, Option.some.injEq] at h
    rw [← h]
    simp
  | cons x xs ih =>
    intro acc res h
    rw [List.foldl_cons] at h
    cases hi : pyInsert key x acc with
    | none =>
      rw [show (some acc).bind (pyInsert key x) = none by simp [hi]] at h
      rw [pySort_foldl_none] at h
      exact Option.noConfusion h
    | some acc' =>
      rw [show (some acc).bind (pyInsert key x) = some acc' by simp [hi]] at h
      have h1 := ih acc' res h
      have h2 : acc'.Perm (x :: acc) := pyInsert_perm hi
      exact (h1.trans (h2.append_right xs)).trans List.perm_middle.symm

theorem pySortBy_perm {α : Type} {key : α → PyKey} {l res : List α}
    (h : pySortBy key l = some res) : res.Perm l := by
  have := pySort_aux_perm key l [] res h
  simpa using this

theorem pyInsert_pstr_some {α : Type} {key : α → PyKey} {x : α}
    (hx : isStrKey (key x) = true) :
    ∀ {l : List α}, (∀ y ∈ l, isStrKey (key y) = true) →
    ∃ l', pyInsert key x l = some l' := by
  intro l
  induction l with
  | nil => intro _; exact ⟨[x], rfl⟩
  | cons y ys ih =>
    intro h
    obtain ⟨a, ha⟩ : ∃ a, key x = .pstr a := by
      cases hk : key x with
      | pint n => rw [hk] at hx; exact absurd hx (by simp [isStrKey])
      | pstr s => exact ⟨s, rfl⟩
    obtain ⟨b, hb⟩ : ∃ b, key y = .pstr b := by
      have hy := h y (by simp)
      cases hk : key y with
      | pint n => rw [hk] at hy; exact absurd hy (by simp [isStrKey])
      | pstr s => exact ⟨s, rfl⟩
    cases hlt : lexLt a.data b.data with
    | true =>
      refine ⟨x :: y :: ys, ?_⟩
      rw [pyInsert, ha, hb]
      simp [pyLt, hlt]
    | false =>
      obtain ⟨l'', hl''⟩ := ih (fun z hz => h z (by simp [hz]))
      refine ⟨y :: l'', ?_⟩
      rw [pyInsert, ha, hb]
      simp [pyLt, hlt, hl'']

theorem pySort_aux_pstr {α : Type} (key : α → PyKey) :
    ∀ (l acc : List α), (∀ y ∈ l, isStrKey (key y) = true) →
      (∀ y ∈ acc, isStrKey (key y) = true) →
      ∃ res, List.foldl (fun a x => a.bind (pyInsert key x)) (some acc) l = some res := by
  intro l
  induction l with
  | nil => intro acc _ _; exact ⟨acc, rfl⟩
  | cons x xs ih =>
    intro acc hl hacc
    obtain ⟨acc', hacc'⟩ := pyInsert_pstr_some (hl x (by simp)) hacc
    have hmem : ∀ y ∈ acc', isStrKey (key y) = true := by
      intro y hy
      have hperm := pyInsert_perm hacc'
      rcases List.mem_cons.mp (hperm.mem_iff.mp hy) with h | h
      · rw [h]; exact hl x (by simp)
      · exact hacc y h
    obtain ⟨res, hres⟩ := ih acc' (fun z hz => hl z (by simp [hz])) hmem
    refine ⟨res, ?_⟩
    rw [List.foldl_cons,
      show (some acc).bind (pyInsert key x) = some acc' by simp [hacc']]
    exact hres

theorem pySortBy_pstr_some {α : Type} {key : α → PyKey} {l : List α}
    (h : ∀ y ∈ l, isStrKey (key y) = true) : ∃ res, pySortBy key l = some res :=
  pySort_aux_pstr key l [] h (by simp)

theorem parseFold_shift (base : String) :
    ∀ (items : List RawItem) (reg : Registry) (cs : List Channel) (evs : List Event),
    items.foldl (parseStepT base) ((reg, cs), evs)
      = (((items.foldl (parseStepT base) ((reg, []), [])).1.1,
          cs ++ (items.foldl (parseStepT base) ((reg, []), [])).1.2),
          evs ++ (items.foldl (parseStepT base) ((reg, []), [])).2) := by
  intro items
  induction items with
  | nil =>
    intro reg cs evs
    simp
  | cons it items ih =>
    intro reg cs evs
    rw [List.foldl_cons, List.foldl_cons]
    cases hi : itemParsed base it with
    | none =>
      rw [show parseStepT base ((reg, cs), evs) it = ((reg, cs), evs) by
          simp [parseStepT, hi],
        show parseStepT base ((reg, []), []) it = ((reg, []), []) by
          simp [parseStepT, hi]]
      exact ih reg cs evs
    | some e =>
      have hstep : ∀ (cs' : List Channel) (evs' : List Event),
          parseStepT base ((reg, cs'), evs') it
            = (((assignChannelNumber reg e.1).2,
                cs' ++ [Channel.mk (assignChannelNumber reg e.1).1 e.1 e.2.1 e.2.2 none]),
                evs' ++ [Event.evParse e.1]) := by
        intro cs' evs'
        simp [parseStepT, hi]
      rw [hstep cs evs, hstep [] []]
      rw [ih ((assignChannelNumber reg e.1).2)
          (cs ++ [Channel.mk (assignChannelNumber reg e.1).1 e.1 e.2.1 e.2.2 none])
          (evs ++ [Event.evParse e.1]),
        ih ((assignChannelNumber reg e.1).2)
          ([] ++ [Channel.mk (assignChannelNumber reg e.1).1 e.1 e.2.1 e.2.2 none])
          ([] ++ [Event.evParse e.1])]
      simp [List.append_assoc]

theorem parseFold_existing (base : String) :
    ∀ (items : List RawItem) (reg : Registry),
    (∀ it ∈ items, ∀ e, itemParsed base it = some e →
        (List.lookup e.1 reg).isSome = true) →
    items.foldl (parseStepT base) ((reg, []), [])
      = ((reg, items.filterMap (recOf base reg)),
          items.filterMap
            (fun it => (itemParsed base it).map (fun e => Event.evParse e.1))) := by
  intro items
  induction items with
  | nil => intro reg _; rfl
  | cons it items ih =>
    intro reg h
    rw [List.foldl_cons]
    cases hi : itemParsed base it with
    | none =>
      rw [show parseStepT base ((reg, []), []) it = ((reg, []), []) by
        simp [parseStepT, hi]]
      rw [ih reg (fun it' hit' => h it' (by simp [hit']))]
      simp [List.filterMap_cons, recOf, hi]
    | some e =>
      have hsome := h it (by simp) e hi
      obtain ⟨v, hv⟩ : ∃ v, List.lookup e.1 reg = some v := by
        cases hlk : List.lookup e.1 reg with
        | none => rw [hlk] at hsome; exact absurd hsome (by simp)
        | some v => exact ⟨v, rfl⟩
      have hassign : assignChannelNumber reg e.1 = (.pstr v, reg) := by
        simp [assignChannelNumber, hv]
      rw [show parseStepT base ((reg, []), []) it
          = ((reg, [⟨.pstr v, e.1, e.2.1, e.2.2, none⟩]), [.evParse e.1]) by
        simp [parseStepT, hi, hassign]]
      rw [parseFold_shift base items reg [⟨.pstr v, e.1, e.2.1, e.2.2, none⟩]
        [.evParse e.1]]
      rw [ih reg (fun it' hit' => h it' (by simp [hit']))]
      simp [List.filterMap_cons, recOf, hi, hv]

/-- C10 (amended).  `parse_html` appends to the accumulated channel list
without clearing it.  When the registry already holds every parsed display
name (string-typed values, as the mapping file stores them), two
consecutive `scrape_streams` runs over the same listing succeed and each
channel appears exactly twice in the second run's returned list.  When the
first run assigns any fresh (int) number, the second run instead raises a
`TypeError` in the sort and returns nothing (see the counterexample). -/
theorem claim10_accumulation_amended (base : String) (reg0 : Registry)
    (items : List RawItem)
    (H : ∀ it ∈ items, ∀ e, itemParsed base it = some e →
        (List.lookup e.1 reg0).isSome = true) :
    ∃ l1 l2 : List Channel,
      scrape_streams base (reg0, []) items false (fun _ => none) []
        = some (reg0, l1)
    ∧ scrape_streams base (reg0, l1) items false (fun _ => none) []
        = some (reg0, l2)
    ∧ ∀ c : Channel, l2.count c = 2 * l1.count c := by
  have hfold1 := parseFold_existing base items reg0 H
  have hkeys : ∀ c ∈ items.filterMap (recOf base reg0), isStrKey c.number = true := by
    intro c hc
    rcases List.mem_filterMap.mp hc with ⟨it, _, hit⟩
    cases hi : itemParsed base it with
    | none =>
      simp only [recOf, hi] at hit
      exact Option.noConfusion hit
    | some e =>
      cases hlk : List.lookup e.1 reg0 with
      | none =>
        simp only [recOf, hi, hlk] at hit
        exact Option.noConfusion hit
      | some v =>
        simp only [recOf, hi, hlk, Option.some.injEq] at hit
        rw [← hit]
        rfl
  obtain ⟨l1, hl1⟩ := @pySortBy_pstr_some Channel (fun c : Channel => c.number) _ hkeys
  have hperm1 : l1.Perm (items.filterMap (recOf base reg0)) := pySortBy_perm hl1
  have hp1 : parse_htmlT base (reg0, []) items
      = (some (reg0, l1),
         (items.filterMap
            (fun it => (itemParsed base it).map (fun e => Event.evParse e.1)))
           ++ [Event.evSave reg0]) := by
    rw [parse_htmlT, hfold1]
    simp only [hl1]
  have hrun1 : scrape_streams base (reg0, []) items false (fun _ => none) []
      = some (reg0, l1) := by
    rw [scrape_streams, scrape_streamsT, hp1]
    rfl
  have hkeys1 : ∀ c ∈ l1, isStrKey c.number = true :=
    fun c hc => hkeys c (hperm1.mem_iff.mp hc)
  have hfold2 : items.foldl (parseStepT base) ((reg0, l1), [])
      = ((reg0, l1 ++ items.filterMap (recOf base reg0)),
         items.filterMap
            (fun it => (itemParsed base it).map (fun e => Event.evParse e.1))) := by
    rw [parseFold_shift base items reg0 l1 [], hfold1]
    simp
  have hkeys2 : ∀ c ∈ l1 ++ items.filterMap (recOf base reg0),
      isStrKey c.number = true := by
    intro c hc
    rcases List.mem_append.mp hc with h | h
    · exact hkeys1 c h
    · exact hkeys c h
  obtain ⟨l2, hl2⟩ := @pySortBy_pstr_some Channel (fun c : Channel => c.number) _ hkeys2
  have hperm2 : l2.Perm (l1 ++ items.filterMap (recOf base reg0)) := pySortBy_perm hl2
  have hp2 : parse_htmlT base (reg0, l1) items
      = (some (reg0, l2),
         (items.filterMap
            (fun it => (itemParsed base it).map (fun e => Event.evParse e.1)))
           ++ [Event.evSave reg0]) := by
    rw [parse_htmlT, hfold2]
    simp only [hl2]
  have hrun2 : scrape_streams base (reg0, l1) items false (fun _ => none) []
      = some (reg0, l2) := by
    rw [scrape_streams, scrape_streamsT, hp2]
    rfl
  refine ⟨l1, l2, hrun1, hrun2, ?_⟩
  intro c
  rw [hperm2.count_eq c, List.count_append, hperm1.count_eq c]
  omega

/-- Witness for C10 (amended) on a concrete preloaded registry. -/
theorem claim10_accumulation_amended_witness :
    ∃ l1 l2 : List Channel,
      scrape_streams "http://h" ([("A", "9")], [])
        [⟨some ⟨some "play?stream=7"⟩, some ⟨some "A", some "a.png"⟩⟩]
        false (fun _ => none) [] = some ([("A", "9")], l1)
    ∧ scrape_streams "http://h" ([("A", "9")], l1)
        [⟨some ⟨some "play?stream=7"⟩, some ⟨some "A", some "a.png"⟩⟩]
        false (fun _ => none) [] = some ([("A", "9")], l2)
    ∧ ∀ c : Channel, l2.count c = 2 * l1.count c :=
  claim10_accumulation_amended "http://h" [("A", "9")]
    [⟨some ⟨some "play?stream=7"⟩, some ⟨some "A", some "a.png"⟩⟩] (by
      intro it hit e he
      rw [List.mem_singleton] at hit
      subst hit
      rw [show itemParsed "http://h"
          ⟨some ⟨some "play?stream=7"⟩, some ⟨some "A", some "a.png"⟩⟩
          = some ("A", "7", "http://h/a.png") from by decide] at he
      cases he
      decide)

theorem pfx_iff : ∀ p s : List Char, pfx p s = true ↔ ∃ b, s = p ++ b := by
  intro p
  induction p with
  | nil =>
    intro s
    simp [pfx]
  | cons a as ih =>
    intro s
    cases s with
    | nil =>
      simp only [pfx]
      constructor
      · intro h
        exact absurd h (by simp)
      · rintro ⟨b, hb⟩
        exact absurd hb (by simp)
    | cons c cs =>
      rw [pfx]
      simp only [Bool.and_eq_true, beq_iff_eq]
      constructor
      · rintro ⟨rfl, h⟩
        obtain ⟨b, rfl⟩ := (ih cs).mp h
        exact ⟨b, rfl⟩
      · rintro ⟨b, hb⟩
        rw [List.cons_append] at hb
        injection hb with h1 h2
        exact ⟨h1.symm, (ih cs).mpr ⟨b, h2⟩⟩

theorem subStr_iff : ∀ (p s : List Char), subStr p s = true ↔ ∃ a b, s = a ++ (p ++ b) := by
  intro p s
  induction s with
  | nil =>
    constructor
    · intro h
      cases p with
      | nil => exact ⟨[], [], rfl⟩
      | cons a as => exact absurd h (by simp [subStr, List.isEmpty])
    · rintro ⟨a, b, hab⟩
      have h1 := List.append_eq_nil.mp hab.symm
      have h2 := (List.append_eq_nil.mp h1.2).1
      simp [subStr, h2, List.isEmpty]
  | cons c cs ih =>
    rw [subStr]
    simp only [Bool.or_eq_true]
    constructor
    · rintro (h | h)
      · obtain ⟨b, hb⟩ := (pfx_iff p (c :: cs)).mp h
        exact ⟨[], b, by simp [hb]⟩
      · obtain ⟨a, b, hab⟩ := ih.mp h
        exact ⟨c :: a, b, by simp [hab]⟩
    · rintro ⟨a, b, hab⟩
      cases a with
      | nil =>
        left
        exact (pfx_iff p (c :: cs)).mpr ⟨b, by simpa using hab⟩
      | cons a0 as =>
        right
        rw [List.cons_append] at hab
        injection hab with h1 h2
        exact ih.mpr ⟨as, b, h2⟩

theorem subStr_of_suffix {p s : List Char} (h : p <:+ s) : subStr p s = true := by
  obtain ⟨a, rfl⟩ := h
  exact (subStr_iff p _).mpr ⟨a, [], by simp⟩

theorem subStr_extend {p s : List Char} (h : subStr p s = true) (a b : List Char) :
    subStr p (a ++ s ++ b) = true := by
  obtain ⟨x, y, rfl⟩ := (subStr_iff p s).mp h
  exact (subStr_iff p _).mpr ⟨a ++ x, y ++ b, by simp⟩

theorem lcStr_append (a b : List Char) : lcStr (a ++ b) = lcStr a ++ lcStr b :=
  List.map_append _ a b

theorem lcPfx_length_le : ∀ {p s : List Char}, lcPfx p s = true → p.length ≤ s.length := by
  intro p
  induction p with
  | nil =>
    intro s _
    simp
  | cons a as ih =>
    intro s h
    cases s with
    | nil => exact absurd h (by simp [lcPfx])
    | cons c cs =>
      rw [lcPfx, Bool.and_eq_true] at h
      have := ih h.2
      simp only [List.length_cons]
      omega

theorem lcPfx_cons_false {p0 c : Char} (h : (p0 == c.toLower) = false)
    (p rest : List Char) : lcPfx (p0 :: p) (c :: rest) = false := by
  simp [lcPfx, h]

theorem isQuote_cases {c : Char} (h : isQuote c = true) :
    c = Char.ofNat 34 ∨ c = Char.ofNat 39 := by
  rw [isQuote, Bool.or_eq_true, beq_iff_eq, beq_iff_eq] at h
  exact h

theorem quote_head_lcPfx_false {c : Char} (hc : isQuote c = true) {p0 : Char}
    (h34 : (p0 == (Char.ofNat 34).toLower) = false)
    (h39 : (p0 == (Char.ofNat 39).toLower) = false)
    (p rest : List Char) : lcPfx (p0 :: p) (c :: rest) = false := by
  rcases isQuote_cases hc with rfl | rfl
  · exact lcPfx_cons_false h34 p rest
  · exact lcPfx_cons_false h39 p rest

theorem suffix_cons_cases {t : List Char} {c : Char} {l : List Char}
    (h : t <:+ c :: l) : t = c :: l ∨ t <:+ l := by
  obtain ⟨a, ha⟩ := h
  cases a with
  | nil =>
    left
    simpa using ha
  | cons x xs =>
    right
    rw [List.cons_append] at ha
    injection ha with _ h2
    exact ⟨xs, h2⟩

theorem suffix_snoc_cases {t u : List Char} {q : Char} (h : t <:+ u ++ [q]) :
    t = [] ∨ ∃ w, w <:+ u ∧ t = w ++ [q] := by
  rcases List.eq_nil_or_concat t with rfl | ⟨w, b, rfl⟩
  · left
    rfl
  · right
    obtain ⟨a, ha⟩ := h
    rw [List.concat_eq_append, ← List.append_assoc] at ha
    obtain ⟨h3, h4⟩ := List.append_inj' ha rfl
    injection h4 with hb _
    exact ⟨w, ⟨a, h3⟩, by rw [List.concat_eq_append, hb]⟩

theorem drop_proper_suffix {t : List Char} {c : Char} {l : List Char}
    (h : t <:+ c :: l) {n : Nat} (hn : 1 ≤ n) : t.drop n <:+ l := by
  have h1 : t.drop n <:+ c :: l := (List.drop_suffix n t).trans h
  rcases suffix_cons_cases h1 with he | hs
  · exfalso
    have hlen2 : t.length ≤ l.length + 1 := by simpa using h.length_le
    have h3 : (t.drop n).length = t.length - n := by simp
    rw [he] at h3
    simp at h3
    omega
  · exact hs

theorem spanToQuote_eval {u : List Char} (hu : ∀ c ∈ u, isQuote c = false)
    {q : Char} (hq : isQuote q = true) (r : List Char) :
    spanToQuote (u ++ q :: r) = some (u, r) := by
  induction u with
  | nil => simp [spanToQuote, hq]
  | cons c cs ih =>
    have hc : isQuote c = false := hu c (by simp)
    rw [List.cons_append, spanToQuote]
    simp [hc, ih (fun x hx => hu x (List.mem_cons_of_mem _ hx))]

theorem quotedM3u8At_none_on {u : List Char} {q' : Char}
    (hu : ∀ c ∈ u, isQuote c = false) (hq' : isQuote q' = true) :
    ∀ t, t <:+ u ++ [q'] → quotedM3u8At t = none := by
  intro t ht
  rcases suffix_snoc_cases ht with rfl | ⟨w, hw, rfl⟩
  · rfl
  · cases w with
    | nil => simp [quotedM3u8At, hq', spanToQuote]
    | cons c w' =>
      have hc : isQuote c = false := hu c (hw.subset (by simp))
      simp [quotedM3u8At, hc]

theorem quotedAnyAt_none_on {u : List Char} {q' : Char}
    (hu : ∀ c ∈ u, isQuote c = false) (hq' : isQuote q' = true) :
    ∀ t, t <:+ u ++ [q'] → quotedAnyAt t = none := by
  intro t ht
  rcases suffix_snoc_cases ht with rfl | ⟨w, hw, rfl⟩
  · rfl
  · cases w with
    | nil => simp [quotedAnyAt, hq', spanToQuote]
    | cons c w' =>
      have hc : isQuote c = false := hu c (hw.subset (by simp))
      simp [quotedAnyAt, hc]

theorem scanAllAux_forall {m : List Char → Option (List Char × List Char)}
    {P : List Char → Prop} :
    ∀ (fuel : Nat) (s : List Char),
    (∀ t, t <:+ s → t ≠ [] → ∀ cap rest, m t = some (cap, rest) →
        rest <:+ t ∧ P cap) →
    ∀ cap ∈ scanAllAux m fuel s, P cap := by
  intro fuel
  induction fuel with
  | zero =>
    intro s _ cap hc
    simp [scanAllAux] at hc
  | succ fuel ih =>
    intro s hm cap hc
    match s with
    | [] => simp [scanAllAux] at hc
    | c :: s' =>
      rw [scanAllAux] at hc
      cases hmt : m (c :: s') with
      | none =>
        rw [hmt] at hc
        exact ih s'
          (fun t ht hne => hm t (ht.trans (List.suffix_cons c s')) hne) cap hc
      | some pr =>
        obtain ⟨cap0, rest⟩ := pr
        rw [hmt] at hc
        have hm0 := hm (c :: s') (List.suffix_refl _) (by simp) cap0 rest hmt
        rcases List.mem_cons.mp hc with h | h
        · rw [h]
          exact hm0.2
        · exact ih rest (fun t ht hne => hm t (ht.trans (hm0.1.trans
            (List.suffix_refl _))) hne) cap h

theorem scanAll_forall {m : List Char → Option (List Char × List Char)}
    {P : List Char → Prop} {s : List Char}
    (hm : ∀ t, t <:+ s → t ≠ [] → ∀ cap rest, m t = some (cap, rest) →
        rest <:+ t ∧ P cap) :
    ∀ cap ∈ scanAll m s, P cap :=
  scanAllAux_forall s.length s hm

theorem scanAll_nil_of {m : List Char → Option (List Char × List Char)}
    {s : List Char} (hm : ∀ t, t <:+ s → t ≠ [] → m t = none) :
    scanAll m s = [] := by
  rw [List.eq_nil_iff_forall_not_mem]
  intro cap hc
  exact @scanAll_forall m (fun _ => False) s
    (fun t ht hne cap0 rest hsome =>
      absurd hsome (by rw [hm t ht hne]; exact fun h => Option.noConfusion h))
    cap hc

theorem tryMids_none {srcOk : List Char → Bool}
    {inner : List Char → Option (List Char × List Char)} {s : List Char}
    (h : ∀ k : Nat, inner (s.drop k) = none) :
    ∀ p : Nat, tryMids srcOk inner s p = none := by
  intro p
  induction p with
  | zero => rfl
  | succ p ih =>
    rw [tryMids]
    by_cases h1 : (s.take (p + 1)).contains '>' = true
    · rw [if_pos h1]
      exact ih
    · rw [if_neg h1]
      by_cases h2 : srcOk (s.drop (p + 1)) = true
      · rw [if_pos h2, h (p + 1 + 4)]
        exact ih
      · rw [if_neg h2]
        exact ih

theorem p1M_none {u : List Char} {q q' : Char} (hq' : isQuote q' = true)
    (hu : ∀ c ∈ u, isQuote c = false) :
    ∀ t, t <:+ q :: (u ++ [q']) → p1M t = none := by
  intro t ht
  rw [p1M]
  by_cases hx : lcPfx "src=".data t = true
  · rw [if_pos hx]
    exact quotedM3u8At_none_on hu hq' _ (drop_proper_suffix ht (by omega))
  · rw [if_neg hx]

theorem p6M_none {u : List Char} {q q' : Char} (hq' : isQuote q' = true)
    (hu : ∀ c ∈ u, isQuote c = false) :
    ∀ t, t <:+ q :: (u ++ [q']) → p6M t = none := by
  intro t ht
  rw [p6M]
  by_cases hx : lcPfx "data-src=".data t = true
  · rw [if_pos hx]
    exact quotedM3u8At_none_on hu hq' _ (drop_proper_suffix ht (by omega))
  · rw [if_neg hx]

theorem p2M_none {u : List Char} {q q' : Char} (hq' : isQuote q' = true)
    (hu : ∀ c ∈ u, isQuote c = false) :
    ∀ t, t <:+ q :: (u ++ [q']) → p2M t = none := by
  intro t ht
  rw [p2M]
  by_cases hx : lcPfx "src".data t = true
  · rw [if_pos hx]
    have h3 : t.drop 3 <:+ u ++ [q'] := drop_proper_suffix ht (by omega)
    have h4 : skipWs (t.drop 3) <:+ u ++ [q'] :=
      (List.dropWhile_suffix _).trans h3
    cases hsw : skipWs (t.drop 3) with
    | nil => simp only [hsw]
    | cons c t2 =>
      simp only [hsw]
      by_cases hcc : (c == ':') = true
      · rw [if_pos hcc]
        have h5 : t2 <:+ u ++ [q'] := (List.suffix_cons c t2).trans (hsw ▸ h4)
        exact quotedM3u8At_none_on hu hq' _ ((List.dropWhile_suffix _).trans h5)
      · rw [if_neg hcc]
  · rw [if_neg hx]

theorem p3M_none {u : List Char} {q q' : Char} (hq' : isQuote q' = true)
    (hu : ∀ c ∈ u, isQuote c = false) :
    ∀ t, t <:+ q :: (u ++ [q']) → p3M t = none := by
  intro t ht
  rw [p3M]
  by_cases hx : lcPfx "<source".data t = true
  · rw [if_pos hx]
    apply tryMids_none
    intro k
    rw [List.drop_drop]
    exact quotedM3u8At_none_on hu hq' _ (drop_proper_suffix ht (by omega))
  · rw [if_neg hx]

theorem p7M_none {u : List Char} {q q' : Char} (hq' : isQuote q' = true)
    (hu : ∀ c ∈ u, isQuote c = false) :
    ∀ t, t <:+ q :: (u ++ [q']) → p7M t = none := by
  intro t ht
  rw [p7M]
  by_cases hx : lcPfx "<iframe".data t = true
  · rw [if_pos hx]
    apply tryMids_none
    intro k
    rw [List.drop_drop, p7Inner,
      quotedAnyAt_none_on hu hq' _ (drop_proper_suffix ht (by omega))]
  · rw [if_neg hx]

theorem searchIframe_none {body : List Char}
    (h : ∀ c ∈ body, ('<' == c) = false) : searchIframe body = none := by
  induction body with
  | nil => rfl
  | cons c s ih =>
    have h1 : pfx "<iframe".data (c :: s) = false := by
      have hc := h c (by simp)
      have hd : "<iframe".data = '<' :: "iframe".data := rfl
      rw [hd]
      simp [pfx, hc]
    have h2 : iframeFbAt (c :: s) = none := by
      rw [iframeFbAt, if_neg]
      simp [h1]
    rw [searchIframe, h2]
    exact ih (fun x hx => h x (List.mem_cons_of_mem _ hx))

theorem subStr_css_of_dotcss {s : List Char} (h : ".css".data <:+ s) :
    subStr "css".data s = true := by
  obtain ⟨a, rfl⟩ := h
  have hd : ".css".data = ['.'] ++ "css".data := rfl
  rw [hd]
  exact (subStr_iff _ _).mpr ⟨a ++ ['.'], [], by simp⟩

theorem subStr_js_of_dotjs {s : List Char} (h : ".js".data <:+ s) :
    subStr "js".data s = true := by
  obtain ⟨a, rfl⟩ := h
  have hd : ".js".data = ['.'] ++ "js".data := rfl
  rw [hd]
  exact (subStr_iff _ _).mpr ⟨a ++ ['.'], [], by simp⟩

theorem subStr_css_snoc {s : List Char} (h : ".css".data <:+ s) (x : Char) :
    subStr "css".data (s ++ [x]) = true := by
  obtain ⟨a, rfl⟩ := h
  have hd : ".css".data = ['.'] ++ "css".data := rfl
  rw [hd]
  exact (subStr_iff _ _).mpr ⟨a ++ ['.'], [x], by simp⟩

theorem subStr_js_snoc {s : List Char} (h : ".js".data <:+ s) (x : Char) :
    subStr "js".data (s ++ [x]) = true := by
  obtain ⟨a, rfl⟩ := h
  have hd : ".js".data = ['.'] ++ "js".data := rfl
  rw [hd]
  exact (subStr_iff _ _).mpr ⟨a ++ ['.'], [x], by simp⟩

theorem uchar_notStop {c : Char} (hs : isSpaceCh c = false)
    (hlt : c.toLower ≠ '<') (hgt : c.toLower ≠ '>') : notStop c = true := by
  have h1 : (c == '<') = false :=
    beq_eq_false_iff_ne.mpr (fun hc => hlt (by rw [hc]; decide))
  have h2 : (c == '>') = false :=
    beq_eq_false_iff_ne.mpr (fun hc => hgt (by rw [hc]; decide))
  simp [notStop, h1, h2, hs]

theorem quote_notStop {c : Char} (h : isQuote c = true) : notStop c = true := by
  rcases isQuote_cases h with rfl | rfl <;> decide

theorem lcStr_suffix {w v : List Char} (h : w <:+ v) : lcStr w <:+ lcStr v :=
  h.map Char.toLower

theorem p4M_char {u : List Char} {q q' : Char} (hq : isQuote q = true)
    (hq' : isQuote q' = true) (hu : ∀ c ∈ u, isQuote c = false)
    (hcj : ".css".data <:+ lcStr u ∨ ".js".data <:+ lcStr u) :
    ∀ t, t <:+ q :: (u ++ [q']) → t ≠ [] → ∀ cap rest,
      p4M t = some (cap, rest) →
      rest <:+ t ∧ (subStr "css".data (lcStr cap) = true
        ∨ subStr "js".data (lcStr cap) = true) := by
  intro t ht htne cap rest hm
  rcases suffix_cons_cases ht with rfl | ht'
  · rw [p4M, quotedM3u8At, if_pos hq] at hm
    have hsp : spanToQuote (u ++ [q']) = some (u, []) :=
      spanToQuote_eval hu hq' []
    rw [hsp] at hm
    have hm2 : (if lcSub ".m3u8".data u = true then
        some (u, ([] : List Char)) else none) = some (cap, rest) := hm
    by_cases hz : lcSub ".m3u8".data u = true
    · rw [if_pos hz] at hm2
      injection hm2 with hm1
      have hcap : u = cap := congrArg Prod.fst hm1
      have hrest : ([] : List Char) = rest := congrArg Prod.snd hm1
      constructor
      · rw [← hrest]
        exact List.nil_suffix
      · rw [← hcap]
        rcases hcj with h | h
        · exact Or.inl (subStr_css_of_dotcss h)
        · exact Or.inr (subStr_js_of_dotjs h)
    · rw [if_neg hz] at hm2
      exact Option.noConfusion hm2
  · rw [p4M, quotedM3u8At_none_on hu hq' t ht'] at hm
    exact Option.noConfusion hm

theorem p5M_char {u : List Char} {q q' : Char} (hq : isQuote q = true)
    (hq' : isQuote q' = true)
    (Hu : ∀ c ∈ u, isQuote c = false ∧ isSpaceCh c = false ∧
        c.toLower ≠ '<' ∧ c.toLower ≠ '>')
    (hcj : ".css".data <:+ lcStr u ∨ ".js".data <:+ lcStr u) :
    ∀ t, t <:+ q :: (u ++ [q']) → t ≠ [] → ∀ cap rest,
      p5M t = some (cap, rest) →
      rest <:+ t ∧ (subStr "css".data (lcStr cap) = true
        ∨ subStr "js".data (lcStr cap) = true) := by
  intro t ht htne cap rest hm
  simp only [p5M] at hm
  have hknz : ∃ k : Nat, 7 ≤ k ∧
      (if lcPfx "https://".data t then 8
        else if lcPfx "http://".data t then 7 else 0) = k ∧
      lcPfx ((if k = 8 then "https://" else "http://").data) t = true := by
    by_cases h8 : lcPfx "https://".data t = true
    · exact ⟨8, by omega, by rw [if_pos h8], by simp [h8]⟩
    · by_cases h7 : lcPfx "http://".data t = true
      · exact ⟨7, by omega, by rw [if_neg h8, if_pos h7], by simp [h7]⟩
      · rw [if_neg h8, if_neg h7] at hm
        simp at hm
  obtain ⟨k, hk7, hkeq, hpk⟩ := hknz
  rw [hkeq] at hm
  have hkne : (k == 0) = false := by
    rw [beq_eq_false_iff_ne]
    omega
  rw [hkne] at hm
  simp only [Bool.false_eq_true, if_false] at hm
  have hlen : 7 ≤ t.length := by
    have := lcPfx_length_le hpk
    by_cases hk8 : k = 8
    · rw [if_pos hk8] at this
      have h8 : ("https://".data).length = 8 := rfl
      omega
    · rw [if_neg hk8] at this
      have h7 : ("http://".data).length = 7 := rfl
      omega
  have htnot : t ≠ q :: (u ++ [q']) := by
    intro he
    have hh : lcPfx ((if k = 8 then "https://" else "http://").data)
        (q :: (u ++ [q'])) = false := by
      by_cases hk8 : k = 8
      · rw [if_pos hk8]
        exact quote_head_lcPfx_false hq (by decide) (by decide) _ _
      · rw [if_neg hk8]
        exact quote_head_lcPfx_false hq (by decide) (by decide) _ _
    rw [he, hh] at hpk
    exact Bool.noConfusion hpk
  have ht2 : t <:+ u ++ [q'] := by
    rcases suffix_cons_cases ht with he | hs
    · exact absurd he htnot
    · exact hs
  obtain ⟨w, hw, rfl⟩ : ∃ w, w <:+ u ∧ t = w ++ [q'] := by
    rcases suffix_snoc_cases ht2 with he | hg
    · exact absurd he htne
    · exact hg
  have hwlen : 6 ≤ w.length := by
    have h1 : (w ++ [q']).length = w.length + 1 := by simp
    omega
  have hall : ∀ c ∈ w ++ [q'], notStop c = true := by
    intro c hc
    rcases List.mem_append.mp hc with hcw | hcq
    · have hcu := Hu c (hw.subset hcw)
      exact uchar_notStop hcu.2.1 hcu.2.2.1 hcu.2.2.2
    · rw [List.mem_singleton.mp hcq]
      exact quote_notStop hq'
  have hdall : ∀ c ∈ (w ++ [q']).drop k, notStop c = true :=
    fun c hc => hall c (List.mem_of_mem_drop hc)
  have htake : ((w ++ [q']).drop k).takeWhile notStop = (w ++ [q']).drop k :=
    List.takeWhile_eq_self_iff.mpr hdall
  have hdrop : ((w ++ [q']).drop k).dropWhile notStop = [] :=
    List.dropWhile_eq_nil_iff.mpr hdall
  rw [htake, hdrop] at hm
  by_cases hsub : subStrFrom1 ".m3u8".data
      (lcStr ((w ++ [q']).drop k)) = true
  · rw [if_pos hsub] at hm
    injection hm with hm1
    have hcap : (w ++ [q']).take k ++ (w ++ [q']).drop k = cap :=
      congrArg Prod.fst hm1
    have hrest : ([] : List Char) = rest := congrArg Prod.snd hm1
    rw [List.take_append_drop] at hcap
    constructor
    · rw [← hrest]
      exact List.nil_suffix
    · rw [← hcap, lcStr_append]
      have hlw : lcStr w <:+ lcStr u := lcStr_suffix hw
      have hlwlen : 6 ≤ (lcStr w).length := by
        rw [lcStr, List.length_map]
        omega
      rcases hcj with h | h
      · left
        have hsuf : ".css".data <:+ lcStr w := by
          rcases List.suffix_or_suffix_of_suffix h hlw with hx | hx
          · exact hx
          · exfalso
            have := hx.length_le
            have h4 : (".css".data).length = 4 := rfl
            omega
        have : lcStr [q'] = [q'.toLower] := rfl
        rw [this]
        exact subStr_css_snoc hsuf _
      · right
        have hsuf : ".js".data <:+ lcStr w := by
          rcases List.suffix_or_suffix_of_suffix h hlw with hx | hx
          · exact hx
          · exfalso
            have := hx.length_le
            have h3 : (".js".data).length = 3 := rfl
            omega
        have : lcStr [q'] = [q'.toLower] := rfl
        rw [this]
        exact subStr_js_snoc hsuf _
  · rw [if_neg hsub] at hm
    exact Option.noConfusion hm

theorem urljoin_data (base s : String) :
    ∃ a b, (urljoin base s).data = a ++ (s.data ++ b) := by
  rw [urljoin]
  by_cases h0 : s = ""
  · refine ⟨base.data, [], ?_⟩
    rw [if_pos h0, h0]
    simp
  · rw [if_neg h0]
    by_cases h1 : (lcPfx "http://".data s.data || lcPfx "https://".data s.data) = true
    · rw [if_pos h1]
      exact ⟨[], [], by simp⟩
    · rw [if_neg h1]
      by_cases h2 : pfx "/".data s.data = true
      · rw [if_pos h2]
        exact ⟨base.data, [], by rw [String.data_append]; simp⟩
      · rw [if_neg h2]
        exact ⟨(base ++ "/").data, [], by rw [String.data_append]; simp⟩

theorem candNorm_data (base : String) (cap : List Char) :
    ∃ a b, (candNorm base cap).data = a ++ (cap ++ b) := by
  rw [candNorm]
  by_cases hp : pfx "http".data cap = true
  · rw [if_pos hp]
    exact ⟨[], [], by simp⟩
  · rw [if_neg hp]
    obtain ⟨a, b, hab⟩ := urljoin_data base (String.mk cap)
    exact ⟨a, b, by simpa using hab⟩

theorem candidateStep_excluded {base : String} {cap : List Char}
    (h : subStr "css".data (lcStr cap) = true
      ∨ subStr "js".data (lcStr cap) = true) :
    candidateStep base cap = none := by
  rw [candidateStep]
  by_cases hf : (lcSub ".m3u8".data cap || lcSub "stream".data cap
      || pfx "http".data cap) = true
  · rw [if_pos hf]
    obtain ⟨a, b, hab⟩ := candNorm_data base cap
    have hexc : EXCLUDES.any
        (fun e => subStr e (lcStr (candNorm base cap).data)) = true := by
      apply List.any_eq_true.mpr
      rcases h with hx | hx
      · refine ⟨"css".data, List.mem_cons_self _ _, ?_⟩
        rw [hab, lcStr_append, lcStr_append, ← List.append_assoc]
        exact subStr_extend hx _ _
      · refine ⟨"js".data, List.mem_cons_of_mem _ (List.mem_cons_self _ _), ?_⟩
        rw [hab, lcStr_append, lcStr_append, ← List.append_assoc]
        exact subStr_extend hx _ _
    rw [if_pos hexc]
  · rw [if_neg hf]

theorem processMatches_skip {base : String} {cap : List Char}
    {caps : List (List Char)} (h : candidateStep base cap = none) :
    processMatches base (cap :: caps) = processMatches base caps := by
  rw [processMatches, h]

theorem processMatches_excluded {base : String} :
    ∀ caps : List (List Char),
    (∀ cap ∈ caps, subStr "css".data (lcStr cap) = true
      ∨ subStr "js".data (lcStr cap) = true) →
    processMatches base caps = none := by
  intro caps
  induction caps with
  | nil => intro _; rfl
  | cons cap caps ih =>
    intro h
    rw [processMatches, candidateStep_excluded (h cap (by simp))]
    exact ih (fun c hc => h c (by simp [hc]))

theorem firstPatternHit_skip {base : String} {ms : List (List Char)}
    {mss : List (List (List Char))} (h : processMatches base ms = none) :
    firstPatternHit base (ms :: mss) = firstPatternHit base mss := by
  rw [firstPatternHit, h]

theorem extract_quoted_asset_none {base : String} {q q' : Char} {u : List Char}
    (hq : isQuote q = true) (hq' : isQuote q' = true)
    (Hu : ∀ c ∈ u, isQuote c = false ∧ isSpaceCh c = false ∧
        c.toLower ≠ '<' ∧ c.toLower ≠ '>')
    (hcj : ".css".data <:+ lcStr u ∨ ".js".data <:+ lcStr u) :
    extract_m3u8 base (q :: (u ++ [q'])) = none := by
  have hu1 : ∀ c ∈ u, isQuote c = false := fun c hc => (Hu c hc).1
  have L1 : scanAll p1M (q :: (u ++ [q'])) = [] :=
    scanAll_nil_of (fun t ht _ => p1M_none hq' hu1 t ht)
  have L2 : scanAll p2M (q :: (u ++ [q'])) = [] :=
    scanAll_nil_of (fun t ht _ => p2M_none hq' hu1 t ht)
  have L3 : scanAll p3M (q :: (u ++ [q'])) = [] :=
    scanAll_nil_of (fun t ht _ => p3M_none hq' hu1 t ht)
  have L6 : scanAll p6M (q :: (u ++ [q'])) = [] :=
    scanAll_nil_of (fun t ht _ => p6M_none hq' hu1 t ht)
  have L7 : scanAll p7M (q :: (u ++ [q'])) = [] :=
    scanAll_nil_of (fun t ht _ => p7M_none hq' hu1 t ht)
  have H4 := scanAll_forall (p4M_char hq hq' hu1 hcj)
  have H5 := scanAll_forall (p5M_char hq hq' Hu hcj)
  have P4 := @processMatches_excluded base _ H4
  have P5 := @processMatches_excluded base _ H5
  have hfph : firstPatternHit base
      (allPatternMatches (q :: (u ++ [q']))) = none := by
    have hemp : processMatches base [] = none := rfl
    rw [allPatternMatches, L1, L2, L3, L6, L7]
    rw [firstPatternHit_skip hemp, firstPatternHit_skip hemp,
      firstPatternHit_skip hemp, firstPatternHit_skip P4,
      firstPatternHit_skip P5, firstPatternHit_skip hemp,
      firstPatternHit_skip hemp]
    rfl
  have hchars : ∀ c ∈ q :: (u ++ [q']), ('<' == c) = false := by
    intro c hc
    rcases List.mem_cons.mp hc with rfl | hc2
    · rcases isQuote_cases hq with rfl | rfl <;> decide
    · rcases List.mem_append.mp hc2 with hcu | hcq
      · exact beq_eq_false_iff_ne.mpr
          (fun he => (Hu c hcu).2.2.1 (by rw [← he]; decide))
      · rw [List.mem_singleton.mp hcq]
        rcases isQuote_cases hq' with rfl | rfl <;> decide
  have hfb : searchIframe (q :: (u ++ [q'])) = none := searchIframe_none hchars
  rw [extract_m3u8, hfph, iframeFallback, hfb]
  rfl

/-- C5.  On a response body that is exactly one quoted URL whose lowercase
form ends in `.css` or `.js` (no whitespace, quotes or angle brackets in
the URL, hence no embedded frame reference), `fetch_m3u8_url` returns an
absent result; moreover an excluded candidate is skipped, not returned—
scanning continues with the remaining candidates of the same heuristic—
and a heuristic whose candidates all fail falls through to the next
heuristic. -/
theorem claim5_resolver_exclusion :
    (∀ (base : String) (q q' : Char) (u : List Char),
        isQuote q = true → isQuote q' = true →
        (∀ c ∈ u, isQuote c = false ∧ isSpaceCh c = false ∧
            c.toLower ≠ '<' ∧ c.toLower ≠ '>') →
        (".css".data <:+ lcStr u ∨ ".js".data <:+ lcStr u) →
        fetch_m3u8_url base (.response 200 (q :: (u ++ [q']))) = none)
  ∧ (∀ (base : String) (cap : List Char) (caps : List (List Char)),
        candidateStep base cap = none →
        processMatches base (cap :: caps) = processMatches base caps)
  ∧ (∀ (base : String) (ms : List (List Char)) (mss : List (List (List Char))),
        processMatches base ms = none →
        firstPatternHit base (ms :: mss) = firstPatternHit base mss) := by
  refine ⟨?_, ?_, ?_⟩
  · intro base q q' u hq hq' Hu hcj
    have hx := @extract_quoted_asset_none base q q' u hq hq' Hu hcj
    simpa [fetch_m3u8_url] using hx
  · exact fun base cap caps h => processMatches_skip h
  · exact fun base ms mss h => firstPatternHit_skip h

/-- Witness for C5 at a concrete stylesheet-only response body. -/
theorem claim5_resolver_exclusion_witness :
    fetch_m3u8_url "http://103.144.89.251"
      (.response 200 (Char.ofNat 34 :: ("style.css".data ++ [Char.ofNat 34])))
      = none
  ∧ processMatches "http://103.144.89.251" ("app.css".data :: [])
      = processMatches "http://103.144.89.251" []
  ∧ firstPatternHit "http://103.144.89.251" ([] :: [])
      = firstPatternHit "http://103.144.89.251" [] := by
  obtain ⟨h1, h2, h3⟩ := claim5_resolver_exclusion
  exact ⟨h1 "http://103.144.89.251" (Char.ofNat 34) (Char.ofNat 34)
      "style.css".data (by decide) (by decide) (by decide)
      (Or.inl (by decide)),
    h2 "http://103.144.89.251" "app.css".data [] (by decide),
    h3 "http://103.144.89.251" [] [] (by decide)⟩

end BdixSc
